import Mathlib

/-!
Verification of the sniff-test / hocklorp annotation-consistency checker.

This file gives a shallow embedding, in Lean 4, of the core pure algorithms of
the repository:

* `merge_adjacent` — the span-merging fold of
  `crates/sniff-test/src/annotations/span.rs` (also duplicated in
  `crates/hocklorp/src/annotations/err.rs`);
* `check_single_word` / `ConditionName.try_new` — condition-name validation of
  `crates/sniff-test/src/annotations/types.rs` (same code in hocklorp);
* `check_consistency` — justification/requirement matching of
  `crates/sniff-test/src/annotations/check.rs`;
* `all_local_reachable` — the breadth-first call-graph walk of
  `crates/sniff-test/src/reachability/reach.rs`;
* `parse_bullets_from_string` — the requirement/justification section parser of
  `crates/hocklorp/src/annotations/parsing.rs`, together with hand-rolled,
  deterministic matchers for the four fixed regular expressions it uses.

Strings are modelled as `List Char`; rustc byte positions are `Nat`.
-/

namespace SniffTest

/-! ## Spans and `merge_adjacent` (annotations/span.rs) -/

/-- A source span: `lo`/`hi` byte positions.  rustc's `Span::new` swaps the
endpoints when `lo > hi`, so every span produced by rustc satisfies
`lo ≤ hi`; theorems that need this take it as a hypothesis. -/
structure Span where
  lo : Nat
  hi : Nat
deriving DecidableEq

/-- rustc `Span::to`: the smallest span enclosing both arguments
(`min` of the `lo`s, `max` of the `hi`s). -/
def Span.to (a b : Span) : Span :=
  ⟨min a.lo b.lo, max a.hi b.hi⟩

/-- `Mergeable::merge_adjacent` (span.rs lines 98-112): fold over the spans;
whenever `last.hi() + BytePos(1) == span.lo()` the incoming span is combined
into the previous one with `last.to(span)`, otherwise it is pushed. -/
def merge_adjacent (spans : List Span) : List Span :=
  spans.foldl
    (fun base span =>
      match base.getLast? with
      | some last =>
          if last.hi + 1 = span.lo then base.dropLast ++ [Span.to last span]
          else base ++ [span]
      | none => [span])
    []

/-- One fold step of `merge_adjacent`. -/
def mergeStep (base : List Span) (span : Span) : List Span :=
  match base.getLast? with
  | some last =>
      if last.hi + 1 = span.lo then base.dropLast ++ [Span.to last span]
      else base ++ [span]
  | none => [span]

theorem merge_adjacent_eq_foldl (l : List Span) :
    merge_adjacent l = l.foldl mergeStep [] := rfl

theorem merge_adjacent_concat (l : List Span) (s : Span) :
    merge_adjacent (l ++ [s]) = mergeStep (merge_adjacent l) s := by
  simp [merge_adjacent_eq_foldl, List.foldl_append]

/-- No two consecutive spans in the list satisfy the merging criterion. -/
def NoMergeable (l : List Span) : Prop :=
  List.Chain' (fun a b => a.hi + 1 ≠ b.lo) l

/-- Well-formed spans (`lo ≤ hi`, as enforced by rustc's `Span::new`). -/
def SpansWf (l : List Span) : Prop := ∀ s ∈ l, s.lo ≤ s.hi

theorem mergeStep_nonempty (base : List Span) (s : Span) : mergeStep base s ≠ [] := by
  unfold mergeStep
  match h : base.getLast? with
  | some last =>
      simp only [h]
      split <;> simp
  | none => simp [h]

/-- Invariant carried through the fold: all output spans are well-formed, the
output has no adjacent mergeable pair, and the first output span's `lo` is
the first input span's `lo` is not needed; instead we track that the last
span's `lo` never decreases below the inputs seen. -/
theorem merge_adjacent_invariant (l : List Span) (hwf : SpansWf l) :
    SpansWf (merge_adjacent l) ∧ NoMergeable (merge_adjacent l) := by
  induction l using List.reverseRecOn with
  | nil => simp [merge_adjacent, NoMergeable, SpansWf]
  | append_singleton l s ih =>
      have hwl : SpansWf l := fun x hx => hwf x (by simp [hx])
      have hs : s.lo ≤ s.hi := hwf s (by simp)
      obtain ⟨ih1, ih2⟩ := ih hwl
      rw [merge_adjacent_concat]
      unfold mergeStep
      match hlast : (merge_adjacent l).getLast? with
      | none =>
          constructor
          · intro x hx
            simp at hx
            simpa [hx] using hs
          · simp [NoMergeable]
      | some last =>
          have hdrop : (merge_adjacent l).dropLast ++ [last] = merge_adjacent l :=
            List.dropLast_append_getLast? last hlast
          have hlast_mem : last ∈ merge_adjacent l := by
            rw [← hdrop]
            exact List.mem_append.mpr (Or.inr (by simp))
          have hlwf : last.lo ≤ last.hi := ih1 last hlast_mem
          dsimp only
          by_cases hadj : last.hi + 1 = s.lo
          · rw [if_pos hadj]
            have hto : Span.to last s = ⟨last.lo, max last.hi s.hi⟩ := by
              unfold Span.to
              congr 1
              omega
            constructor
            · intro x hx
              rcases List.mem_append.mp hx with hx | hx
              · exact ih1 x (by rw [← hdrop]; exact List.mem_append.mpr (Or.inl hx))
              · simp at hx
                subst hx
                rw [hto]
                simp only
                omega
            · have hch := ih2
              unfold NoMergeable at hch ⊢
              rw [← hdrop, List.chain'_append] at hch
              rw [List.chain'_append]
              obtain ⟨h1, _, h3⟩ := hch
              refine ⟨h1, by simp, ?_⟩
              intro x hx y hy
              simp at hy
              subst hy
              have := h3 x hx last (by simp)
              rw [hto]
              simpa using this
          · rw [if_neg hadj]
            constructor
            · intro x hx
              rcases List.mem_append.mp hx with hx | hx
              · exact ih1 x hx
              · simp at hx
                subst hx
                exact hs
            · unfold NoMergeable at ih2 ⊢
              rw [List.chain'_append]
              refine ⟨ih2, by simp, ?_⟩
              intro x hx y hy
              simp at hy
              subst hy
              rw [hlast] at hx
              simp at hx
              subst hx
              exact hadj

/-- On a list with no adjacent mergeable pair, `merge_adjacent` is the identity. -/
theorem merge_adjacent_of_noMergeable (l : List Span) (h : NoMergeable l) :
    merge_adjacent l = l := by
  induction l using List.reverseRecOn with
  | nil => simp [merge_adjacent]
  | append_singleton l s ih =>
      unfold NoMergeable at h
      rw [List.chain'_append] at h
      obtain ⟨h1, _, h3⟩ := h
      have ihl : merge_adjacent l = l := ih h1
      rw [merge_adjacent_concat, ihl]
      unfold mergeStep
      match hlast : l.getLast? with
      | none =>
          have : l = [] := List.getLast?_eq_none_iff.mp hlast
          simp [this]
      | some last =>
          have hne : last.hi + 1 ≠ s.lo := h3 last hlast s (by simp)
          dsimp only
          rw [if_neg hne]

/-- C10 (claim): `merge_adjacent` is idempotent — its output contains no two
consecutive spans satisfying its own merging criterion (`hi + 1 = lo`), so a
second application returns the output unchanged.  The hypothesis `SpansWf`
records rustc's `Span` construction invariant `lo ≤ hi`. -/
theorem c10_merge_idempotent (l : List Span) (hwf : SpansWf l) :
    NoMergeable (merge_adjacent l) ∧
      merge_adjacent (merge_adjacent l) = merge_adjacent l := by
  obtain ⟨_, h2⟩ := merge_adjacent_invariant l hwf
  exact ⟨h2, merge_adjacent_of_noMergeable _ h2⟩

/-- Witness for C10 at a concrete list of well-formed spans. -/
theorem c10_merge_idempotent_witness :
    NoMergeable (merge_adjacent [⟨0, 3⟩, ⟨4, 7⟩, ⟨20, 25⟩]) ∧
      merge_adjacent (merge_adjacent [⟨0, 3⟩, ⟨4, 7⟩, ⟨20, 25⟩]) =
        merge_adjacent [⟨0, 3⟩, ⟨4, 7⟩, ⟨20, 25⟩] :=
  c10_merge_idempotent [⟨0, 3⟩, ⟨4, 7⟩, ⟨20, 25⟩] (by unfold SpansWf; decide)

/-- C6 (counterexample): the claim says two consecutive mapped spans are
combined exactly when the end position of the first *equals* the start
position of the second.  The code's criterion is `hi + 1 = lo`:
`[0,5]` and `[5,8]` (end = start) are *not* merged, while `[0,5]` and
`[6,8]` (end + 1 = start) *are* merged into `[0,8]`. -/
theorem c6_counterexample :
    merge_adjacent [⟨0, 5⟩, ⟨5, 8⟩] = [⟨0, 5⟩, ⟨5, 8⟩] ∧
      merge_adjacent [⟨0, 5⟩, ⟨6, 8⟩] = [⟨0, 8⟩] := by
  constructor <;> rfl

/-- C6 (amended): when the span mapper's per-fragment results are merged, an
incoming span is combined with the previous (already merged) span exactly
when the end position of the previous span *plus one* equals the start
position of the incoming one; otherwise it is left unmerged. -/
theorem c6_amended (l : List Span) (s : Span) :
    merge_adjacent (l ++ [s]) =
      match (merge_adjacent l).getLast? with
      | some last =>
          if last.hi + 1 = s.lo then (merge_adjacent l).dropLast ++ [Span.to last s]
          else merge_adjacent l ++ [s]
      | none => [s] := by
  rw [merge_adjacent_concat]
  rfl

/-! ## Condition names (annotations/types.rs) -/

/-- `InvalidConditionNameReason` (types.rs). -/
inductive InvalidConditionNameReason where
  | trailingWhitespace
  | multipleWords
deriving DecidableEq

/-- `INVALID_WHITESPACE: [char; 3] = [' ', '\n', '\t']` (types.rs). -/
def INVALID_WHITESPACE : List Char := [' ', '\n', '\t']

/-- Rust `str::split` with a multi-character pattern: split at every occurrence
of any separator character; `""` yields `[""]`, and separators at either end
produce empty pieces. -/
def splitChars (seps : List Char) : List Char → List (List Char)
  | [] => [[]]
  | c :: rest =>
    if c ∈ seps then [] :: splitChars seps rest
    else
      match splitChars seps rest with
      | [] => [[c]]
      | p :: ps => (c :: p) :: ps

theorem splitChars_cons (seps : List Char) (c : Char) (rest : List Char) :
    splitChars seps (c :: rest) =
      if c ∈ seps then [] :: splitChars seps rest
      else
        match splitChars seps rest with
        | [] => [[c]]
        | p :: ps => (c :: p) :: ps := by
  rfl

/-- `check_single_word` (types.rs lines 92-109): if the name contains one of
the three whitespace characters, report `TrailingWhitespace` when the number
of non-empty split pieces is exactly one, else `MultipleWords`; otherwise
accept the name unchanged. -/
def check_single_word (name : List Char) :
    Except InvalidConditionNameReason (List Char) :=
  if name.any (fun c => decide (c ∈ INVALID_WHITESPACE)) then
    if ((splitChars INVALID_WHITESPACE name).filter (fun w => !w.isEmpty)).length = 1 then
      .error .trailingWhitespace
    else .error .multipleWords
  else .ok name

/-- `ConditionName::try_new` (types.rs lines 74-77): validate via
`check_single_word`. -/
def ConditionName.try_new (name : List Char) :
    Except InvalidConditionNameReason (List Char) :=
  check_single_word name

/-- Independent token counter: the number of maximal runs of characters not in
`INVALID_WHITESPACE`.  The `inWord` flag records whether the previous
character was part of a token. -/
def countTokensAux : List Char → Bool → Nat
  | [], _ => 0
  | c :: rest, inWord =>
    if c ∈ INVALID_WHITESPACE then countTokensAux rest false
    else (if inWord then 0 else 1) + countTokensAux rest true

def countTokens (s : List Char) : Nat := countTokensAux s false

theorem splitChars_ne_nil (seps : List Char) (s : List Char) :
    splitChars seps s ≠ [] := by
  cases s with
  | nil => simp [splitChars]
  | cons c rest =>
      unfold splitChars
      split
      · simp
      · match h : splitChars seps rest with
        | [] => simp
        | p :: ps => simp

/-- Joint accumulator lemma relating `countTokensAux` to the split-based count
used by the source. -/
theorem countTokensAux_spec (s : List Char) :
    countTokensAux s false =
        ((splitChars INVALID_WHITESPACE s).filter (fun w => !w.isEmpty)).length ∧
      countTokensAux s true +
          (if (splitChars INVALID_WHITESPACE s).headI.isEmpty then 0 else 1) =
        ((splitChars INVALID_WHITESPACE s).filter (fun w => !w.isEmpty)).length := by
  induction s with
  | nil => simp [countTokensAux, splitChars]
  | cons c rest ih =>
      obtain ⟨ih1, ih2⟩ := ih
      by_cases hc : c ∈ INVALID_WHITESPACE
      · have hsp : splitChars INVALID_WHITESPACE (c :: rest) =
            [] :: splitChars INVALID_WHITESPACE rest := by
          rw [splitChars_cons, if_pos hc]
        constructor
        · simp only [countTokensAux, if_pos hc]
          rw [ih1, hsp, List.filter_cons]
          simp
        · simp only [countTokensAux, if_pos hc]
          rw [ih1, hsp, List.filter_cons]
          simp
      · match hrest : splitChars INVALID_WHITESPACE rest with
        | [] => exact absurd hrest (splitChars_ne_nil _ _)
        | p :: ps =>
            have hsp : splitChars INVALID_WHITESPACE (c :: rest) = (c :: p) :: ps := by
              rw [splitChars_cons, if_neg hc, hrest]
            rw [hrest] at ih1 ih2
            rw [List.filter_cons] at ih1 ih2
            simp only [List.headI] at ih2
            have htrue : countTokensAux rest true =
                (ps.filter (fun w => !w.isEmpty)).length := by
              by_cases hp : p = []
              · subst hp
                simp at ih2
                simpa using ih2
              · have hpe : p.isEmpty = false := by
                  cases p with
                  | nil => exact absurd rfl hp
                  | cons a b => rfl
                simp [hpe] at ih2
                omega
            constructor
            · simp only [countTokensAux, if_neg hc, Bool.false_eq_true, if_false]
              rw [htrue, hsp, List.filter_cons]
              simp
              omega
            · simp only [countTokensAux, if_neg hc, if_pos rfl]
              rw [htrue, hsp, List.filter_cons]
              simp

theorem countTokens_eq_split (s : List Char) :
    countTokens s =
      ((splitChars INVALID_WHITESPACE s).filter (fun w => !w.isEmpty)).length :=
  (countTokensAux_spec s).1

/-- C2 (counterexample): on `" "` (whitespace only, zero non-empty tokens —
not two or more) the code reports `MultipleWords`, while the claim requires
`TrailingWhitespace` for any whitespace-containing string with fewer than two
tokens; and on `""` (zero tokens, not exactly one) `try_new` succeeds, while
the claim requires success exactly for one-token strings. -/
theorem c2_counterexample :
    ConditionName.try_new [' '] = .error .multipleWords ∧ countTokens [' '] = 0 ∧
      ConditionName.try_new [] = .ok [] ∧ countTokens [] = 0 := by
  refine ⟨rfl, rfl, rfl, rfl⟩

/-- C2 (amended): `try_new s` succeeds exactly when `s` contains none of the
three characters space, newline, tab (in particular the empty string
succeeds); for `s` containing such a character it fails with
`TrailingWhitespace` exactly when `s` splits into exactly one non-empty
token, and with `MultipleWords` otherwise (including zero tokens). -/
theorem c2_amended (s : List Char) :
    ((∃ t, ConditionName.try_new s = .ok t) ↔ ∀ c ∈ s, c ∉ INVALID_WHITESPACE) ∧
      ((∃ c ∈ s, c ∈ INVALID_WHITESPACE) →
        (ConditionName.try_new s = .error .trailingWhitespace ↔ countTokens s = 1) ∧
        (ConditionName.try_new s = .error .multipleWords ↔ countTokens s ≠ 1)) := by
  unfold ConditionName.try_new check_single_word
  rw [countTokens_eq_split]
  by_cases h : s.any (fun c => decide (c ∈ INVALID_WHITESPACE))
  · rw [if_pos h]
    have hmem : ∃ c ∈ s, c ∈ INVALID_WHITESPACE := by
      simpa using List.any_eq_true.mp h
    constructor
    · constructor
      · intro ⟨t, ht⟩
        split at ht <;> exact absurd ht (by simp)
      · intro hall
        obtain ⟨c, hc, hcw⟩ := hmem
        exact absurd hcw (hall c hc)
    · intro _
      by_cases hone :
          ((splitChars INVALID_WHITESPACE s).filter (fun w => !w.isEmpty)).length = 1
      · rw [if_pos hone]
        exact ⟨by simp [hone], by simp [hone]⟩
      · rw [if_neg hone]
        exact ⟨by simp [hone], by simp [hone]⟩
  · rw [if_neg h]
    constructor
    · constructor
      · intro _
        intro c hc hcw
        exact h (List.any_eq_true.mpr ⟨c, hc, by simpa using hcw⟩)
      · intro _
        exact ⟨s, rfl⟩
    · intro hmem
      obtain ⟨c, hc, hcw⟩ := hmem
      exact absurd (List.any_eq_true.mpr ⟨c, hc, by simpa using hcw⟩) h

/-- Witness for C2's amended theorem, at `s = "a b"` (two tokens →
`MultipleWords`) via direct application. -/
theorem c2_amended_witness :
    (ConditionName.try_new ['a', ' ', 'b'] = .error .multipleWords ↔
      countTokens ['a', ' ', 'b'] ≠ 1) :=
  ((c2_amended ['a', ' ', 'b']).2 ⟨' ', by decide, by decide⟩).2

/-! ## `check_consistency` (annotations/check.rs) -/

/-- `Requirement` (types.rs): a named precondition with a description. -/
structure Requirement where
  name : List Char
  description : List Char
deriving DecidableEq

/-- `Justification` (types.rs): a named claim with an explanation. -/
structure Justification where
  name : List Char
  explanation : List Char
deriving DecidableEq

/-- `check_consistency` (check.rs lines 9-24): for each requirement in order,
succeed iff some justification's name equals the requirement's name
(`just.node.name().as_str() == req.node.name().as_str()`); the first
unsatisfied requirement is returned as the error. -/
def check_consistency (justifications : List Justification) :
    List Requirement → Except Requirement Unit
  | [] => .ok ()
  | req :: rest =>
    if justifications.any (fun just => decide (just.name = req.name)) then
      check_consistency justifications rest
    else .error req

/-- C5 (claim): satisfaction is decided by exact case-sensitive equality of
condition names alone: `check_consistency` returns `Ok` exactly when every
requirement's name equals the name of some justification, and changing
descriptions/explanations while keeping names fixed never changes the result
(up to the error's own description field, compared here by name). -/
theorem c5_name_equality (justs : List Justification) (reqs : List Requirement) :
    (check_consistency justs reqs = .ok () ↔
      ∀ r ∈ reqs, ∃ j ∈ justs, j.name = r.name) ∧
      (∀ (justs' : List Justification) (reqs' : List Requirement),
        justs'.map Justification.name = justs.map Justification.name →
        reqs'.map Requirement.name = reqs.map Requirement.name →
        (check_consistency justs' reqs').mapError Requirement.name =
          (check_consistency justs reqs).mapError Requirement.name) := by
  constructor
  · induction reqs with
    | nil => simp [check_consistency]
    | cons r rest ih =>
        unfold check_consistency
        by_cases h : justs.any (fun just => decide (just.name = r.name))
        · rw [if_pos h]
          have hr : ∃ j ∈ justs, j.name = r.name := by
            simpa using List.any_eq_true.mp h
          constructor
          · intro hok x hx
            rcases List.mem_cons.mp hx with hx | hx
            · subst hx; exact hr
            · exact (ih.mp hok) x hx
          · intro hall
            exact ih.mpr (fun x hx => hall x (List.mem_cons_of_mem _ hx))
        · rw [if_neg h]
          constructor
          · intro hok
            exact absurd hok (by simp)
          · intro hall
            obtain ⟨j, hj, hjn⟩ := hall r (List.mem_cons_self _ _)
            exact absurd (List.any_eq_true.mpr ⟨j, hj, by simpa using hjn⟩) h
  · intro justs' reqs' hjn hrn
    induction reqs generalizing reqs' with
    | nil =>
        have : reqs' = [] := by
          cases reqs' with
          | nil => rfl
          | cons x xs => simp at hrn
        simp [this, check_consistency]
    | cons r rest ih =>
        cases reqs' with
        | nil => simp at hrn
        | cons r' rest' =>
            simp only [List.map_cons, List.cons.injEq] at hrn
            obtain ⟨hrname, hrest⟩ := hrn
            have hiff : (justs'.any (fun just => decide (just.name = r'.name))) = true ↔
                (justs.any (fun just => decide (just.name = r.name))) = true := by
              simp only [List.any_eq_true, decide_eq_true_eq, hrname]
              constructor
              · rintro ⟨j, hj, hjname⟩
                have : j.name ∈ justs.map Justification.name := by
                  rw [← hjn]
                  exact List.mem_map_of_mem _ hj
                obtain ⟨j0, hj0, hj0n⟩ := List.mem_map.mp this
                exact ⟨j0, hj0, by rw [hj0n, hjname]⟩
              · rintro ⟨j, hj, hjname⟩
                have : j.name ∈ justs'.map Justification.name := by
                  rw [hjn]
                  exact List.mem_map_of_mem _ hj
                obtain ⟨j0, hj0, hj0n⟩ := List.mem_map.mp this
                exact ⟨j0, hj0, by rw [hj0n, hjname]⟩
            have hany : (justs'.any (fun just => decide (just.name = r'.name))) =
                (justs.any (fun just => decide (just.name = r.name))) := by
              rcases Bool.eq_false_or_eq_true
                  (justs'.any (fun just => decide (just.name = r'.name))) with h1 | h1 <;>
                rcases Bool.eq_false_or_eq_true
                    (justs.any (fun just => decide (just.name = r.name))) with h2 | h2 <;>
                simp [h1, h2] at hiff ⊢
            unfold check_consistency
            rw [hany]
            by_cases h : justs.any (fun just => decide (just.name = r.name))
            · rw [if_pos h, if_pos h]
              exact ih rest' hrest
            · rw [if_neg h, if_neg h]
              simp [Except.mapError, hrname]

/-- Witness for C5 at concrete inputs via direct application. -/
theorem c5_name_equality_witness :
    check_consistency [⟨['n', 'n'], ['x']⟩] [⟨['n', 'n'], ['y']⟩] = .ok () ↔
      ∀ r ∈ [(⟨['n', 'n'], ['y']⟩ : Requirement)],
        ∃ j ∈ [(⟨['n', 'n'], ['x']⟩ : Justification)], j.name = r.name :=
  (c5_name_equality [⟨['n', 'n'], ['x']⟩] [⟨['n', 'n'], ['y']⟩]).1

/-! ## Reachability walk (reachability/reach.rs) -/

/-- `LocallyReachable` (reach.rs lines 13-21): a reached function, the path of
`(caller, call-span)` edges through which it was reached, and the calls its
body makes.  `LocalDefId`s and spans are modelled as `Nat`; the `calls_to`
map is modelled as the list of `(callee, span)` pairs in visit order. -/
structure LocallyReachable where
  reach : Nat
  through : List (Nat × Nat)
  calls_to : List (Nat × Nat)
deriving DecidableEq

/-- `LocallyReachable::extended_to` (reach.rs lines 25-36). -/
def LocallyReachable.extended_to (d : LocallyReachable) (def_id : Nat) (span : Nat) :
    LocallyReachable :=
  ⟨def_id, d.through ++ [(d.reach, span)], []⟩

/-- The program as seen by the walker: local functions are `0 .. n-1`
(`DefId::as_local()` succeeds exactly on them), `calls f` lists the call
terminators of `f`'s body in visit order as `(callee, span)` pairs, and
`is_trait_fn` marks abstract trait methods (which have no body, hence no
calls). -/
structure CallGraph where
  n : Nat
  calls : Nat → List (Nat × Nat)
  is_trait_fn : Nat → Bool

/-- The callees of `f` that are local (`def_id.as_local()` is `Some`), i.e.
the ones the body visitor pushes onto the worklist. -/
def localCalls (g : CallGraph) (f : Nat) : List (Nat × Nat) :=
  (g.calls f).filter (fun cs => decide (cs.1 < g.n))

/-- The worklist items pushed while visiting the body of `d` (reach.rs
lines 106-126): one `extended_to` item per local callee, in body order. -/
def visitPushes (g : CallGraph) (d : LocallyReachable) : List LocallyReachable :=
  (localCalls g d.reach).map (fun cs => d.extended_to cs.1 cs.2)

/-- The record inserted into `reachable` after visiting `d`'s body: `calls_to`
now holds every call of the body (local or not). -/
def visited_record (g : CallGraph) (d : LocallyReachable) : LocallyReachable :=
  ⟨d.reach, d.through, g.calls d.reach⟩

/-- `CallGraphVisitor::all_local_reachable` (reach.rs lines 75-97), with
explicit fuel: pop the front of the worklist; drop it if already visited;
drop it if it is an abstract trait method; otherwise visit the body, pushing
one extended item per local callee onto the back, and record the function as
reachable.  `none` means the fuel ran out (the real loop runs until the
worklist empties; `bfsFuel` below is always enough). -/
def all_local_reachable_aux (g : CallGraph) :
    Nat → List LocallyReachable → List (Nat × LocallyReachable) →
      Option (List (Nat × LocallyReachable))
  | _, [], visited => some visited
  | 0, _ :: _, _ => none
  | fuel + 1, d :: rest, visited =>
    if (visited.lookup d.reach).isSome then
      all_local_reachable_aux g fuel rest visited
    else if g.is_trait_fn d.reach then
      all_local_reachable_aux g fuel rest visited
    else
      all_local_reachable_aux g fuel (rest ++ visitPushes g d)
        (visited ++ [(d.reach, visited_record g d)])

/-- Weight of one unvisited function in the termination potential. -/
def outWeight (g : CallGraph) (f : Nat) : Nat := 1 + (localCalls g f).length

/-- Enough fuel for any run: one unit per initial item plus one unit per
(function, push) that can ever happen. -/
def bfsFuel (g : CallGraph) (q : List LocallyReachable) : Nat :=
  q.length + ((List.range g.n).map (outWeight g)).sum

/-- `locally_reachable_from` / `all_local_reachable` (reach.rs lines 44-97):
run the worklist loop from the entry points. -/
def all_local_reachable (g : CallGraph) (entry_points : List Nat) :
    Option (List (Nat × LocallyReachable)) :=
  let q := entry_points.map (fun e => (⟨e, [], []⟩ : LocallyReachable))
  all_local_reachable_aux g (bfsFuel g q) q []

def keysOf (vis : List (Nat × LocallyReachable)) : List Nat := vis.map Prod.fst

/-- Termination potential: worklist length plus the weights of the not yet
visited local functions. -/
def phi (g : CallGraph) (q : List LocallyReachable)
    (vis : List (Nat × LocallyReachable)) : Nat :=
  q.length +
    (((List.range g.n).filter (fun f => !(vis.lookup f).isSome)).map (outWeight g)).sum

theorem lookup_append_single (vis : List (Nat × LocallyReachable)) (k : Nat)
    (v : LocallyReachable) (a : Nat) :
    (vis ++ [(k, v)]).lookup a =
      match vis.lookup a with
      | some r => some r
      | none => if a = k then some v else none := by
  induction vis with
  | nil =>
      simp only [List.nil_append, List.lookup]
      by_cases h : a = k
      · subst h
        simp [List.lookup]
      · simp [List.lookup, h, beq_false_of_ne h]
  | cons kv tl ih =>
      simp only [List.cons_append, List.lookup]
      by_cases h : a = kv.1
      · subst h
        simp [beq_self_eq_true]
      · rw [beq_false_of_ne h]
        simpa using ih

theorem lookup_none_iff_not_mem_keys (vis : List (Nat × LocallyReachable)) (k : Nat) :
    vis.lookup k = none ↔ k ∉ keysOf vis := by
  induction vis with
  | nil => simp [List.lookup, keysOf]
  | cons kv tl ih =>
      simp only [List.lookup, keysOf, List.map_cons, List.mem_cons]
      by_cases h : k = kv.1
      · subst h
        simp [beq_self_eq_true]
      · rw [beq_false_of_ne h]
        simp only [keysOf] at ih
        simp [ih, h]

theorem sum_filter_remove (l : List Nat) (hnd : l.Nodup) (k : Nat) (hk : k ∈ l)
    (p : Nat → Bool) (hpk : p k = true) (w : Nat → Nat) :
    (((l.filter p).map w)).sum =
      w k + ((l.filter (fun f => p f && !(f = k : Bool))).map w).sum := by
  induction l with
  | nil => simp at hk
  | cons a tl ih =>
      rcases List.nodup_cons.mp hnd with ⟨hna, hnd'⟩
      rcases List.mem_cons.mp hk with hak | hk'
      · subst hak
        have hft : tl.filter (fun f => p f && !(f = k : Bool)) = tl.filter p := by
          apply List.filter_congr
          intro x hx
          have hxk : x ≠ k := fun he => hna (he ▸ hx)
          simp [hxk]
        rw [List.filter_cons, List.filter_cons]
        have hkk : ¬((p k && !(k = k : Bool)) = true) := by simp
        rw [if_pos hpk, if_neg hkk, hft]
        simp
      · have hka : k ≠ a := by
          intro he
          exact hna (he ▸ hk')
        rw [List.filter_cons, List.filter_cons]
        by_cases hpa : p a = true
        · have hcond : (p a && !(a = k : Bool)) = true := by
            simp [hpa, Ne.symm hka]
          rw [if_pos hpa, if_pos hcond]
          simp only [List.map_cons, List.sum_cons]
          rw [ih hnd' hk']
          omega
        · have hcond : ¬((p a && !(a = k : Bool)) = true) := by
            simp only [Bool.and_eq_true]
            intro hand
            exact hpa hand.1
          rw [if_neg hpa, if_neg hcond]
          exact ih hnd' hk'

/-- Sufficient fuel: if every worklist item is local and the fuel is at least
the potential, the loop empties its worklist (never returns `none`). -/
theorem aux_isSome (g : CallGraph) :
    ∀ (fuel : Nat) (q : List LocallyReachable) (vis : List (Nat × LocallyReachable)),
      (∀ d ∈ q, d.reach < g.n) → phi g q vis ≤ fuel →
      (all_local_reachable_aux g fuel q vis).isSome := by
  intro fuel
  induction fuel with
  | zero =>
      intro q vis hq hphi
      cases q with
      | nil => simp [all_local_reachable_aux]
      | cons d rest =>
          exfalso
          have : 1 ≤ phi g (d :: rest) vis := by
            unfold phi
            simp only [List.length_cons]
            omega
          omega
  | succ fuel ih =>
      intro q vis hq hphi
      cases q with
      | nil => simp [all_local_reachable_aux]
      | cons d rest =>
          unfold all_local_reachable_aux
          by_cases hvis : (vis.lookup d.reach).isSome
          · rw [if_pos hvis]
            apply ih rest vis (fun x hx => hq x (List.mem_cons_of_mem _ hx))
            unfold phi at hphi ⊢
            simp only [List.length_cons] at hphi
            omega
          · rw [if_neg hvis]
            by_cases htr : g.is_trait_fn d.reach
            · rw [if_pos htr]
              apply ih rest vis (fun x hx => hq x (List.mem_cons_of_mem _ hx))
              unfold phi at hphi ⊢
              simp only [List.length_cons] at hphi
              omega
            · rw [if_neg htr]
              apply ih
              · intro x hx
                rcases List.mem_append.mp hx with hx | hx
                · exact hq x (List.mem_cons_of_mem _ hx)
                · unfold visitPushes at hx
                  obtain ⟨cs, hcs, hx⟩ := List.mem_map.mp hx
                  subst hx
                  unfold localCalls at hcs
                  have := List.of_mem_filter hcs
                  simpa [LocallyReachable.extended_to] using of_decide_eq_true this
              · -- potential decreases
                have hlook : vis.lookup d.reach = none := by
                  cases hb : vis.lookup d.reach
                  · rfl
                  · rw [hb] at hvis
                    simp at hvis
                have hdn : d.reach < g.n := hq d (List.mem_cons_self _ _)
                have hmem : d.reach ∈ List.range g.n := List.mem_range.mpr hdn
                have hsum := sum_filter_remove (List.range g.n) (List.nodup_range _)
                  d.reach hmem (fun f => !(vis.lookup f).isSome)
                  (by simp [hlook]) (outWeight g)
                have hfcong :
                    (List.range g.n).filter
                      (fun f => !((vis ++ [(d.reach, visited_record g d)]).lookup f).isSome) =
                    (List.range g.n).filter
                      (fun f => (!(vis.lookup f).isSome) && !(f = d.reach : Bool)) := by
                  apply List.filter_congr
                  intro x _
                  rw [lookup_append_single]
                  cases hb : vis.lookup x
                  · by_cases hx : x = d.reach
                    · simp [hx]
                    · simp [hx]
                  · simp
                unfold phi at hphi ⊢
                rw [hfcong]
                simp only [List.length_append, List.length_cons] at hphi ⊢
                have hpl : (visitPushes g d).length = (localCalls g d.reach).length := by
                  unfold visitPushes
                  simp
                have how : outWeight g d.reach = 1 + (localCalls g d.reach).length := rfl
                omega

/-- Call paths: `Reaches g f t p` says the edge list `p` (as `(caller, span)`
pairs) is a chain of calls from `f` to `t`, each callee being local. -/
inductive Reaches (g : CallGraph) : Nat → Nat → List (Nat × Nat) → Prop where
  | refl (f : Nat) : Reaches g f f []
  | step {f c t : Nat} {s : Nat} {p : List (Nat × Nat)} :
      (c, s) ∈ g.calls f → c < g.n → Reaches g c t p → Reaches g f t ((f, s) :: p)

/-- A call path from some entry point. -/
def PathFrom (g : CallGraph) (entries : List Nat) (t : Nat) (p : List (Nat × Nat)) : Prop :=
  ∃ e ∈ entries, Reaches g e t p

theorem Reaches.snoc {g : CallGraph} {e v : Nat} {p : List (Nat × Nat)}
    (h : Reaches g e v p) :
    ∀ {c s : Nat}, (c, s) ∈ g.calls v → c < g.n → Reaches g e c (p ++ [(v, s)]) := by
  induction h with
  | refl f =>
      intro c s hc hn
      exact Reaches.step hc hn (Reaches.refl c)
  | step hcs hlt _ ih =>
      intro c s hc hn
      exact Reaches.step hcs hlt (ih hc hn)

theorem Reaches.snoc_inv {g : CallGraph} {e t v : Nat} {s : Nat} {p : List (Nat × Nat)}
    (h : Reaches g e t (p ++ [(v, s)])) :
    Reaches g e v p ∧ (t, s) ∈ g.calls v ∧ t < g.n := by
  induction p generalizing e with
  | nil =>
      simp only [List.nil_append] at h
      cases h with
      | step hcs hlt htail =>
          cases htail with
          | refl => exact ⟨Reaches.refl _, hcs, hlt⟩
  | cons hd tl ih =>
      cases h with
      | step hcs hlt htail =>
          obtain ⟨h1, h2, h3⟩ := ih htail
          exact ⟨Reaches.step hcs hlt h1, h2, h3⟩

theorem Reaches.nil_inv {g : CallGraph} {e t : Nat} (h : Reaches g e t []) : e = t := by
  cases h
  rfl

/-- Invariant of the worklist loop. -/
structure Inv (g : CallGraph) (entries : List Nat) (q : List LocallyReachable)
    (vis : List (Nat × LocallyReachable)) : Prop where
  hq : ∀ d ∈ q, d.reach < g.n
  qSound : ∀ d ∈ q, PathFrom g entries d.reach d.through
  qSorted : q.Pairwise (fun a b => a.through.length ≤ b.through.length)
  qBand : q.Pairwise (fun a b => b.through.length ≤ a.through.length + 1)
  visKeys : ∀ kv ∈ vis, kv.2.reach = kv.1
  visSound : ∀ kv ∈ vis, PathFrom g entries kv.1 kv.2.through
  visMin : ∀ kv ∈ vis, ∀ p, PathFrom g entries kv.1 p → kv.2.through.length ≤ p.length
  visNodup : (keysOf vis).Nodup
  edgeRelax : ∀ kv ∈ vis, ∀ c s, (c, s) ∈ localCalls g kv.1 →
    g.is_trait_fn c = false →
    (c ∈ keysOf vis ∨ ∃ d ∈ q, d.reach = c ∧ d.through.length ≤ kv.2.through.length + 1)
  entryCover : ∀ e ∈ entries, g.is_trait_fn e = false →
    (e ∈ keysOf vis ∨ ∃ d ∈ q, d.reach = e ∧ d.through.length = 0)

/-- Frontier coverage: at any state satisfying the invariant, every call path
from an entry point to a non-trait function `t` is dominated either by `t`'s
visited record or by a worklist item plus a remaining suffix. -/
theorem cover (g : CallGraph) (entries : List Nat) (q : List LocallyReachable)
    (vis : List (Nat × LocallyReachable)) (inv : Inv g entries q vis)
    (htrait : ∀ f, g.is_trait_fn f = true → g.calls f = [])
    (t : Nat) (ht : g.is_trait_fn t = false) (p : List (Nat × Nat))
    (hp : PathFrom g entries t p) :
    (∃ kv ∈ vis, kv.1 = t ∧ kv.2.through.length ≤ p.length) ∨
    (∃ d ∈ q, ∃ p2, Reaches g d.reach t p2 ∧ d.through.length + p2.length ≤ p.length) := by
  induction p using List.reverseRecOn generalizing t with
  | nil =>
      obtain ⟨e, he, hre⟩ := hp
      have het : e = t := Reaches.nil_inv hre
      subst het
      rcases inv.entryCover e he ht with hl | ⟨d, hd, hdr, hdl⟩
      · obtain ⟨kv, hkv, hkv1⟩ := List.mem_map.mp hl
        refine Or.inl ⟨kv, hkv, hkv1, ?_⟩
        have := inv.visMin kv hkv [] ⟨e, he, hkv1 ▸ Reaches.refl _⟩
        simpa using this
      · exact Or.inr ⟨d, hd, [], hdr ▸ Reaches.refl _, by simp [hdl]⟩
  | append_singleton p2 vs ih =>
      obtain ⟨v, s⟩ := vs
      obtain ⟨e, he, hre⟩ := hp
      obtain ⟨hrev, hedge, hlt⟩ := Reaches.snoc_inv hre
      have hvnt : g.is_trait_fn v = false := by
        cases hb : g.is_trait_fn v
        · rfl
        · exfalso
          have := htrait v hb
          rw [this] at hedge
          simp at hedge
      rcases ih v hvnt ⟨e, he, hrev⟩ with ⟨kv, hkv, hkv1, hkvlen⟩ | ⟨d, hd, p3, hr3, hlen3⟩
      · by_cases htk : t ∈ keysOf vis
        · obtain ⟨kvt, hkvt, hkvt1⟩ := List.mem_map.mp htk
          refine Or.inl ⟨kvt, hkvt, hkvt1, ?_⟩
          exact inv.visMin kvt hkvt _ (hkvt1 ▸ ⟨e, he, hre⟩)
        · have hloc : (t, s) ∈ localCalls g kv.1 := by
            unfold localCalls
            rw [hkv1]
            exact List.mem_filter.mpr ⟨hedge, by simpa using hlt⟩
          rcases inv.edgeRelax kv hkv t s hloc ht with hl | ⟨d, hd, hdr, hdl⟩
          · exact absurd hl htk
          · refine Or.inr ⟨d, hd, [], hdr ▸ Reaches.refl _, ?_⟩
            simp only [List.length_nil, Nat.add_zero, List.length_append,
              List.length_cons]
            omega
      · refine Or.inr ⟨d, hd, p3 ++ [(v, s)], Reaches.snoc hr3 hedge hlt, ?_⟩
        simp only [List.length_append, List.length_cons, List.length_nil] at hlen3 ⊢
        omega

/-- Step preservation: dropping an already-visited or trait front item. -/
theorem inv_step_drop (g : CallGraph) (entries : List Nat) (d : LocallyReachable)
    (rest : List LocallyReachable) (vis : List (Nat × LocallyReachable))
    (inv : Inv g entries (d :: rest) vis)
    (hdrop : d.reach ∈ keysOf vis ∨ g.is_trait_fn d.reach = true) :
    Inv g entries rest vis := by
  refine ⟨fun x hx => inv.hq x (List.mem_cons_of_mem _ hx),
    fun x hx => inv.qSound x (List.mem_cons_of_mem _ hx),
    (List.pairwise_cons.mp inv.qSorted).2,
    (List.pairwise_cons.mp inv.qBand).2,
    inv.visKeys, inv.visSound, inv.visMin, inv.visNodup, ?_, ?_⟩
  · intro kv hkv c s hcs hcnt
    rcases inv.edgeRelax kv hkv c s hcs hcnt with hl | ⟨d2, hd2, hdr, hdl⟩
    · exact Or.inl hl
    · rcases List.mem_cons.mp hd2 with hd2 | hd2
      · subst hd2
        rcases hdrop with hdk | hdt
        · exact Or.inl (hdr ▸ hdk)
        · exfalso
          rw [← hdr] at hcnt
          rw [hdt] at hcnt
          exact absurd hcnt (by simp)
      · exact Or.inr ⟨d2, hd2, hdr, hdl⟩
  · intro e he hent
    rcases inv.entryCover e he hent with hl | ⟨d2, hd2, hdr, hdl⟩
    · exact Or.inl hl
    · rcases List.mem_cons.mp hd2 with hd2 | hd2
      · subst hd2
        rcases hdrop with hdk | hdt
        · exact Or.inl (hdr ▸ hdk)
        · exfalso
          rw [← hdr] at hent
          rw [hdt] at hent
          exact absurd hent (by simp)
      · exact Or.inr ⟨d2, hd2, hdr, hdl⟩

/-- Step preservation: expanding an unvisited, non-trait front item. -/
theorem inv_step_expand (g : CallGraph) (entries : List Nat) (d : LocallyReachable)
    (rest : List LocallyReachable) (vis : List (Nat × LocallyReachable))
    (inv : Inv g entries (d :: rest) vis)
    (htrait : ∀ f, g.is_trait_fn f = true → g.calls f = [])
    (hnotvis : d.reach ∉ keysOf vis) (hnt : g.is_trait_fn d.reach = false) :
    Inv g entries (rest ++ visitPushes g d)
      (vis ++ [(d.reach, visited_record g d)]) := by
  have hrest_ge : ∀ x ∈ rest, d.through.length ≤ x.through.length :=
    (List.pairwise_cons.mp inv.qSorted).1
  have hrest_le : ∀ x ∈ rest, x.through.length ≤ d.through.length + 1 :=
    (List.pairwise_cons.mp inv.qBand).1
  have hpush_len : ∀ x ∈ visitPushes g d, x.through.length = d.through.length + 1 := by
    intro x hx
    unfold visitPushes at hx
    obtain ⟨cs, _, hx⟩ := List.mem_map.mp hx
    subst hx
    simp [LocallyReachable.extended_to]
  have hpush_reach : ∀ x ∈ visitPushes g d,
      ∃ cs ∈ localCalls g d.reach, x = d.extended_to cs.1 cs.2 := by
    intro x hx
    unfold visitPushes at hx
    obtain ⟨cs, hcs, hx⟩ := List.mem_map.mp hx
    exact ⟨cs, hcs, hx.symm⟩
  have hdsound : PathFrom g entries d.reach d.through :=
    inv.qSound d (List.mem_cons_self _ _)
  have hdmin : ∀ p, PathFrom g entries d.reach p → d.through.length ≤ p.length := by
    intro p hp
    rcases cover g entries (d :: rest) vis inv htrait d.reach hnt p hp with
      ⟨kv, hkv, hkv1, _⟩ | ⟨d2, hd2, p2, _, hlen2⟩
    · exact absurd (hkv1 ▸ List.mem_map_of_mem Prod.fst hkv) hnotvis
    · have : d.through.length ≤ d2.through.length := by
        rcases List.mem_cons.mp hd2 with h | h
        · subst h
          exact le_refl _
        · exact hrest_ge d2 h
      omega
  refine ⟨?_, ?_, ?_, ?_, ?_, ?_, ?_, ?_, ?_, ?_⟩
  · intro x hx
    rcases List.mem_append.mp hx with hx | hx
    · exact inv.hq x (List.mem_cons_of_mem _ hx)
    · obtain ⟨cs, hcs, hx⟩ := hpush_reach x hx
      subst hx
      unfold localCalls at hcs
      have := List.of_mem_filter hcs
      simpa [LocallyReachable.extended_to] using of_decide_eq_true this
  · intro x hx
    rcases List.mem_append.mp hx with hx | hx
    · exact inv.qSound x (List.mem_cons_of_mem _ hx)
    · obtain ⟨cs, hcs, hx⟩ := hpush_reach x hx
      subst hx
      obtain ⟨e, he, hre⟩ := hdsound
      have hmem := List.mem_filter.mp hcs
      refine ⟨e, he, ?_⟩
      simp only [LocallyReachable.extended_to]
      exact Reaches.snoc hre hmem.1 (of_decide_eq_true hmem.2)
  · rw [List.pairwise_append]
    refine ⟨(List.pairwise_cons.mp inv.qSorted).2, ?_, ?_⟩
    · apply List.pairwise_of_forall_mem_list
      intro a ha b hb
      rw [hpush_len a ha, hpush_len b hb]
    · intro x hx y hy
      rw [hpush_len y hy]
      have := hrest_le x hx
      omega
  · rw [List.pairwise_append]
    refine ⟨(List.pairwise_cons.mp inv.qBand).2, ?_, ?_⟩
    · apply List.pairwise_of_forall_mem_list
      intro a ha b hb
      rw [hpush_len a ha, hpush_len b hb]
      omega
    · intro x hx y hy
      rw [hpush_len y hy]
      have := hrest_ge x hx
      omega
  · intro kv hkv
    rcases List.mem_append.mp hkv with hkv | hkv
    · exact inv.visKeys kv hkv
    · simp at hkv
      subst hkv
      rfl
  · intro kv hkv
    rcases List.mem_append.mp hkv with hkv | hkv
    · exact inv.visSound kv hkv
    · simp at hkv
      subst hkv
      exact hdsound
  · intro kv hkv
    rcases List.mem_append.mp hkv with hkv | hkv
    · exact inv.visMin kv hkv
    · simp at hkv
      subst hkv
      exact hdmin
  · unfold keysOf
    rw [List.map_append]
    simp only [List.map_cons, List.map_nil]
    rw [List.nodup_append]
    refine ⟨inv.visNodup, by simp, ?_⟩
    intro a ha hb
    simp at hb
    exact hnotvis (hb ▸ ha)
  · intro kv hkv c s hcs hcnt
    rcases List.mem_append.mp hkv with hkv | hkv
    · rcases inv.edgeRelax kv hkv c s hcs hcnt with hl | ⟨d2, hd2, hdr, hdl⟩
      · exact Or.inl (by unfold keysOf at hl ⊢; rw [List.map_append]; exact List.mem_append.mpr (Or.inl hl))
      · rcases List.mem_cons.mp hd2 with hd2 | hd2
        · subst hd2
          refine Or.inl ?_
          unfold keysOf
          rw [List.map_append, hdr]
          simp
        · exact Or.inr ⟨d2, List.mem_append.mpr (Or.inl hd2), hdr, hdl⟩
    · simp at hkv
      subst hkv
      refine Or.inr ?_
      refine ⟨d.extended_to c s, ?_, ?_, ?_⟩
      · refine List.mem_append.mpr (Or.inr ?_)
        unfold visitPushes
        exact List.mem_map.mpr ⟨(c, s), hcs, rfl⟩
      · rfl
      · simp [LocallyReachable.extended_to, visited_record]
  · intro e he hent
    rcases inv.entryCover e he hent with hl | ⟨d2, hd2, hdr, hdl⟩
    · refine Or.inl ?_
      unfold keysOf at hl ⊢
      rw [List.map_append]
      exact List.mem_append.mpr (Or.inl hl)
    · rcases List.mem_cons.mp hd2 with hd2 | hd2
      · subst hd2
        refine Or.inl ?_
        unfold keysOf
        rw [List.map_append, hdr]
        simp
      · exact Or.inr ⟨d2, List.mem_append.mpr (Or.inl hd2), hdr, hdl⟩

/-- Keys of the visited map stay duplicate-free: a function already present is
never recorded a second time. -/
theorem aux_nodup (g : CallGraph) :
    ∀ (fuel : Nat) (q : List LocallyReachable) (vis res : List (Nat × LocallyReachable)),
      (keysOf vis).Nodup →
      all_local_reachable_aux g fuel q vis = some res → (keysOf res).Nodup := by
  intro fuel
  induction fuel with
  | zero =>
      intro q vis res hnd hres
      cases q with
      | nil =>
          simp [all_local_reachable_aux] at hres
          subst hres
          exact hnd
      | cons d rest => simp [all_local_reachable_aux] at hres
  | succ fuel ih =>
      intro q vis res hnd hres
      cases q with
      | nil =>
          simp [all_local_reachable_aux] at hres
          subst hres
          exact hnd
      | cons d rest =>
          unfold all_local_reachable_aux at hres
          by_cases hvis : (vis.lookup d.reach).isSome
          · rw [if_pos hvis] at hres
            exact ih rest vis res hnd hres
          · rw [if_neg hvis] at hres
            by_cases htr : g.is_trait_fn d.reach
            · rw [if_pos htr] at hres
              exact ih rest vis res hnd hres
            · rw [if_neg htr] at hres
              refine ih _ _ res ?_ hres
              have hlook : vis.lookup d.reach = none := by
                cases hb : vis.lookup d.reach
                · rfl
                · rw [hb] at hvis
                  simp at hvis
              have hnv : d.reach ∉ keysOf vis :=
                (lookup_none_iff_not_mem_keys vis d.reach).mp hlook
              unfold keysOf
              rw [List.map_append]
              simp only [List.map_cons, List.map_nil]
              rw [List.nodup_append]
              exact ⟨hnd, by simp, fun a ha hb => hnv (by simp at hb; exact hb ▸ ha)⟩

/-- Main loop lemma: whenever the loop finishes from an invariant state, every
recorded function carries a real path from an entry point of minimum length,
and the recorded keys are duplicate-free. -/
theorem aux_spec (g : CallGraph) (entries : List Nat)
    (htrait : ∀ f, g.is_trait_fn f = true → g.calls f = []) :
    ∀ (fuel : Nat) (q : List LocallyReachable) (vis res : List (Nat × LocallyReachable)),
      Inv g entries q vis →
      all_local_reachable_aux g fuel q vis = some res →
      (keysOf res).Nodup ∧
        ∀ kv ∈ res, kv.2.reach = kv.1 ∧ PathFrom g entries kv.1 kv.2.through ∧
          ∀ p, PathFrom g entries kv.1 p → kv.2.through.length ≤ p.length := by
  intro fuel
  induction fuel with
  | zero =>
      intro q vis res inv hres
      cases q with
      | nil =>
          simp [all_local_reachable_aux] at hres
          subst hres
          exact ⟨inv.visNodup, fun kv hkv =>
            ⟨inv.visKeys kv hkv, inv.visSound kv hkv, inv.visMin kv hkv⟩⟩
      | cons d rest => simp [all_local_reachable_aux] at hres
  | succ fuel ih =>
      intro q vis res inv hres
      cases q with
      | nil =>
          simp [all_local_reachable_aux] at hres
          subst hres
          exact ⟨inv.visNodup, fun kv hkv =>
            ⟨inv.visKeys kv hkv, inv.visSound kv hkv, inv.visMin kv hkv⟩⟩
      | cons d rest =>
          unfold all_local_reachable_aux at hres
          by_cases hvis : (vis.lookup d.reach).isSome
          · rw [if_pos hvis] at hres
            have hmem : d.reach ∈ keysOf vis := by
              by_contra hcon
              rw [(lookup_none_iff_not_mem_keys vis d.reach).mpr hcon] at hvis
              simp at hvis
            exact ih rest vis res (inv_step_drop g entries d rest vis inv (Or.inl hmem)) hres
          · rw [if_neg hvis] at hres
            by_cases htr : g.is_trait_fn d.reach
            · rw [if_pos htr] at hres
              exact ih rest vis res (inv_step_drop g entries d rest vis inv (Or.inr htr)) hres
            · rw [if_neg htr] at hres
              have hlook : vis.lookup d.reach = none := by
                cases hb : vis.lookup d.reach
                · rfl
                · rw [hb] at hvis
                  simp at hvis
              have hnv : d.reach ∉ keysOf vis :=
                (lookup_none_iff_not_mem_keys vis d.reach).mp hlook
              have hnt : g.is_trait_fn d.reach = false := by
                cases hb : g.is_trait_fn d.reach
                · rfl
                · exact absurd hb htr
              exact ih _ _ res
                (inv_step_expand g entries d rest vis inv htrait hnv hnt) hres

/-- The invariant holds at the initial state. -/
theorem inv_init (g : CallGraph) (entries : List Nat)
    (hentries : ∀ e ∈ entries, e < g.n) :
    Inv g entries (entries.map (fun e => (⟨e, [], []⟩ : LocallyReachable))) [] := by
  refine ⟨?_, ?_, ?_, ?_, by simp, by simp, by simp, by simp [keysOf], by simp, ?_⟩
  · intro d hd
    obtain ⟨e, he, rfl⟩ := List.mem_map.mp hd
    exact hentries e he
  · intro d hd
    obtain ⟨e, he, rfl⟩ := List.mem_map.mp hd
    exact ⟨e, he, Reaches.refl e⟩
  · apply List.pairwise_of_forall_mem_list
    intro a ha b hb
    obtain ⟨e1, _, rfl⟩ := List.mem_map.mp ha
    obtain ⟨e2, _, rfl⟩ := List.mem_map.mp hb
    simp
  · apply List.pairwise_of_forall_mem_list
    intro a ha b hb
    obtain ⟨e1, _, rfl⟩ := List.mem_map.mp ha
    obtain ⟨e2, _, rfl⟩ := List.mem_map.mp hb
    simp
  · intro e he _
    exact Or.inr ⟨⟨e, [], []⟩, List.mem_map_of_mem _ he, rfl, rfl⟩

/-- C3 (claim): every function recorded as reachable by the walk carries a
witness path that is a real call path from some entry point, and that path
has the minimum number of edges among all call paths from any entry point to
that function (the worklist is processed front-first and the first visit
wins).  `htrait` records that an abstract trait method has no body and hence
no outgoing calls — the walk skips such fronts (reach.rs lines 80-87). -/
theorem c3_bfs_shortest_path (g : CallGraph) (entries : List Nat)
    (hentries : ∀ e ∈ entries, e < g.n)
    (htrait : ∀ f, g.is_trait_fn f = true → g.calls f = [])
    (res : List (Nat × LocallyReachable))
    (hres : all_local_reachable g entries = some res)
    (kv : Nat × LocallyReachable) (hkv : kv ∈ res) :
    kv.2.reach = kv.1 ∧ PathFrom g entries kv.1 kv.2.through ∧
      ∀ p, PathFrom g entries kv.1 p → kv.2.through.length ≤ p.length := by
  unfold all_local_reachable at hres
  exact (aux_spec g entries htrait _ _ [] res (inv_init g entries hentries) hres).2 kv hkv

/-- Concrete call graph for the C3 witness: `0` calls `1` (span 100) and `2`
(span 101); `1` calls `2` (span 102).  The shortest path to `2` is the direct
call of length one. -/
def cgA : CallGraph :=
  ⟨3, fun f => if f = 0 then [(1, 100), (2, 101)] else if f = 1 then [(2, 102)] else [],
    fun _ => false⟩

/-- C4 (claim): on every finite call graph, including cyclic ones, the walk
terminates (the loop runs out of worklist, never out of fuel), and each
visited function appears exactly once among the reachable records. -/
theorem c4_termination_unique (g : CallGraph) (entries : List Nat)
    (hentries : ∀ e ∈ entries, e < g.n) :
    (all_local_reachable g entries).isSome ∧
      ∀ res, all_local_reachable g entries = some res → (keysOf res).Nodup := by
  constructor
  · unfold all_local_reachable
    apply aux_isSome
    · intro d hd
      obtain ⟨e, he, rfl⟩ := List.mem_map.mp hd
      exact hentries e he
    · unfold phi bfsFuel
      have hfl : (List.range g.n).filter
          (fun f => !(([] : List (Nat × LocallyReachable)).lookup f).isSome) =
          List.range g.n := by
        apply List.filter_eq_self.mpr
        intro a _
        simp [List.lookup]
      rw [hfl]
  · intro res hres
    unfold all_local_reachable at hres
    exact aux_nodup g _ _ [] res (by simp [keysOf]) hres

/-- Cyclic call graph for the C4 witness: `0` calls `1`, `1` calls `0`. -/
def cgB : CallGraph :=
  ⟨2, fun f => if f = 0 then [(1, 5)] else if f = 1 then [(0, 6)] else [],
    fun _ => false⟩

/-- Witness for C3: on `cgA` the walk records `2` with the one-edge direct
path `[(0, 101)]`, which is minimal among all call paths from the entry `0`
(the two-edge path through `1` is longer). -/
theorem c3_bfs_shortest_path_witness :
    PathFrom cgA [0] 2 [(0, 101)] ∧
      ∀ p, PathFrom cgA [0] 2 p → 1 ≤ p.length := by
  have h := c3_bfs_shortest_path cgA [0] (by decide) (fun f hf => nomatch hf)
    [(0, ⟨0, [], [(1, 100), (2, 101)]⟩), (1, ⟨1, [(0, 100)], [(2, 102)]⟩),
      (2, ⟨2, [(0, 101)], []⟩)]
    (by decide) (2, ⟨2, [(0, 101)], []⟩) (by decide)
  exact ⟨h.2.1, fun p hp => h.2.2 p hp⟩

/-- Witness for C4 on the cyclic graph `cgB` (`0` and `1` call each other):
the walk terminates and records each function at most once. -/
theorem c4_termination_unique_witness :
    (all_local_reachable cgB [0]).isSome ∧
      ∀ res, all_local_reachable cgB [0] = some res → (keysOf res).Nodup :=
  c4_termination_unique cgB [0] (by decide)

/-! ## Doc-string parsing (hocklorp annotations/parsing.rs)

The parser uses four fixed regular expressions (crate `regex`, leftmost match,
Perl-style first-branch/greedy semantics):

* requirement section marker: `(\n|^)(\s*)[#]+ (Unsafe|UNSAFE)(\n|$)`;
* section end: `\n(\s*)([#]+|\n)`;
* bullet start (per style `b`): `(\n|^)(\s*)b` with `b` either `\*` or `-`.

Each is embedded as a deterministic matcher.  Determinism is exact for the
marker and bullet patterns because their greedy sub-patterns (`\s*`, `[#]+`)
are each followed by a character their class excludes, so only the maximal
run can succeed; the section-end pattern needs genuine backtracking of `\s*`
(its follow set `#`/`\n` intersects the class), which `sectionEndCore`
performs longest-first. -/

/-- Whitespace characters: the Unicode `White_Space` class, which is both
the regex crate's default `\s` and Rust `char::is_whitespace` (hence
`str::trim`): the six ASCII whitespace characters plus NEL, NBSP, OGHAM
SPACE MARK, the EN QUAD..HAIR SPACE range, LINE/PARAGRAPH SEPARATOR, NARROW
NO-BREAK SPACE, MEDIUM MATHEMATICAL SPACE and IDEOGRAPHIC SPACE. -/
def isWsChar (c : Char) : Bool :=
  c == ' ' || c == '\t' || c == '\n' || c == '\r' || c == '\x0b' || c == '\x0c' ||
  c == '\u0085' || c == '\u00A0' || c == '\u1680' ||
  c == '\u2000' || c == '\u2001' || c == '\u2002' || c == '\u2003' ||
  c == '\u2004' || c == '\u2005' || c == '\u2006' || c == '\u2007' ||
  c == '\u2008' || c == '\u2009' || c == '\u200A' ||
  c == '\u2028' || c == '\u2029' || c == '\u202F' || c == '\u205F' ||
  c == '\u3000'

/-- Matcher for the marker-regex body `(\s*)[#]+ (Unsafe|UNSAFE)(\n|$)`
starting right after the `(\n|^)` anchor; returns the number of characters
consumed. -/
def markerCore (s : List Char) : Option Nat :=
  let w := (s.takeWhile isWsChar).length
  let s1 := s.drop w
  let h := (s1.takeWhile (fun c => c == '#')).length
  if h = 0 then none
  else
    match s1.drop h with
    | ' ' :: s2 =>
        match s2 with
        | 'U' :: 'n' :: 's' :: 'a' :: 'f' :: 'e' :: s3 =>
            match s3 with
            | '\n' :: _ => some (w + h + 8)
            | [] => some (w + h + 7)
            | _ => none
        | 'U' :: 'N' :: 'S' :: 'A' :: 'F' :: 'E' :: s3 =>
            match s3 with
            | '\n' :: _ => some (w + h + 8)
            | [] => some (w + h + 7)
            | _ => none
        | _ => none
    | _ => none

/-- Matcher for the bullet-regex body `(\s*)b` (with `b` the bullet
character) starting right after the `(\n|^)` anchor. -/
def bulletCore (b : Char) (s : List Char) : Option Nat :=
  let w := (s.takeWhile isWsChar).length
  match s.drop w with
  | c :: _ => if c = b then some (w + 1) else none
  | [] => none

/-- The `([#]+|\n)` tail of the section-end regex. -/
def sectionEndTail (s : List Char) : Option Nat :=
  match s with
  | [] => none
  | c :: rest =>
    if c = '#' then some (1 + (rest.takeWhile (fun x => x == '#')).length)
    else if c = '\n' then some 1
    else none

/-- Matcher for the section-end-regex body `(\s*)([#]+|\n)` starting right
after the leading `\n`; backtracks the greedy `\s*` longest-first. -/
def sectionEndCore : List Char → Option Nat
  | [] => none
  | c :: rest =>
    if isWsChar c then
      match sectionEndCore rest with
      | some k => some (k + 1)
      | none => sectionEndTail (c :: rest)
    else sectionEndTail (c :: rest)

/-- Scan for the `\n`-anchored branch: at each position holding `'\n'`, try
the core on the rest; the match starts at the `'\n'` and its end includes
the core's consumption.  `i` is the absolute position of the head of `s`. -/
def scanNl (core : List Char → Option Nat) : Nat → List Char → Option (Nat × Nat)
  | _, [] => none
  | i, c :: rest =>
    if c = '\n' then
      match core rest with
      | some k => some (i, i + 1 + k)
      | none => scanNl core (i + 1) rest
    else scanNl core (i + 1) rest

/-- `Regex::find` for a pattern of shape `(\n|^)core`: the `^` branch applies
only at position 0 of the haystack (Rust slices are fresh haystacks); at
position 0 the two branches agree whenever both apply, since `core` begins
with `\s*` and `\n` is whitespace. -/
def reFind (core : List Char → Option Nat) (s : List Char) : Option (Nat × Nat) :=
  match core s with
  | some k => some (0, k)
  | none => scanNl core 0 s

/-- The loop of parsing.rs lines 50-58 collecting the ranges of every marker
match: repeatedly `find` on the remaining slice (a fresh haystack, so `^`
re-anchors, exactly as in the source) and accumulate absolute offsets. -/
def markerRangesAux : Nat → List Char → Nat → List (Nat × Nat)
  | 0, _, _ => []
  | fuel + 1, s, most_recent =>
    match reFind markerCore s with
    | none => []
    | some (st, en) =>
        (st + most_recent, en + most_recent) ::
          markerRangesAux fuel (s.drop en) (most_recent + en)

def marker_ranges (s : List Char) : List (Nat × Nat) :=
  markerRangesAux (s.length + 1) s 0

/-- `Regex::split` (find_iter) for the bullet pattern, after the first match:
subsequent matches can only use the `\n` branch.  Returns
`(absolute start offset, segment)` pairs; `off` is the absolute offset of
`s`'s head. -/
def splitIter (b : Char) : Nat → List Char → Nat → List (Nat × List Char)
  | 0, s, off => [(off, s)]
  | fuel + 1, s, off =>
    match scanNl (bulletCore b) 0 s with
    | none => [(off, s)]
    | some (st, en) => (off, s.take st) :: splitIter b fuel (s.drop en) (off + en)

/-- `bullet_pat.split(comment_str)` with the character offset of each segment
(the source recovers offsets through `subslice_offset_stable`). -/
def bulletSplit (b : Char) (s : List Char) : List (Nat × List Char) :=
  match reFind (bulletCore b) s with
  | none => [(0, s)]
  | some (st, en) => (0, s.take st) :: splitIter b (s.length + 1) (s.drop en) en

/-- Rust `str::trim`. -/
def rustTrim (s : List Char) : List Char :=
  ((s.dropWhile isWsChar).reverse.dropWhile isWsChar).reverse

/-- Rust `str::split_once(":")`: split at the first colon. -/
def splitOnceColon : List Char → Option (List Char × List Char)
  | [] => none
  | c :: rest =>
    if c = ':' then some ([], rest)
    else (splitOnceColon rest).map (fun pr => (c :: pr.1, pr.2))

/-- Rust `bullet_str.find(' ').unwrap_or(bullet_str.len())`: offset of the
first space character, or the length if there is none. -/
def firstSpace (s : List Char) : Nat :=
  (s.takeWhile (fun c => !(c == ' '))).length

/-- `ParsingIssue` (hocklorp annotations/err.rs lines 12-34).  Character
ranges are `(start, end)` pairs. -/
inductive ParsingIssue where
  | noDocString
  | noMarkerPattern
  | multipleMarkerPatterns (ranges : List (Nat × Nat))
  | noColon (chars : Nat × Nat) (firstWordLen : Nat)
  | emptyMarker
  | invalidConditionName (reason : InvalidConditionNameReason) (chars : Nat × Nat)
      (name : List Char)
  | nonMatchingBullets (bullets : List ((Nat × Nat) × List Char))
deriving DecidableEq

/-- `Requirement::parse_bullet` (parsing.rs lines 98-113): validate the
pre-colon text as a `ConditionName`, trim the post-colon text as the
description. -/
def parse_bullet (pre post : List Char) (pre_chars : Nat × Nat) :
    Except ParsingIssue (List Char × List Char) :=
  match ConditionName.try_new pre with
  | .error reason => .error (.invalidConditionName reason pre_chars pre)
  | .ok name => .ok (name, rustTrim post)

/-- One iteration of the bullet loop (parsing.rs lines 74-86): trim the
segment, split at the first colon (`NoColon` if absent, with the range of the
trimmed bullet in the original string and the offset of its first space),
then `parse_bullet`.  `segOff` is the segment's offset in the original
string; the trimmed slice starts after the segment's leading whitespace. -/
def trimOff (segOff : Nat) (seg : List Char) : Nat :=
  segOff + (seg.takeWhile isWsChar).length

def parseOneBullet (segOff : Nat) (seg : List Char) :
    Except ParsingIssue (List Char × List Char) :=
  match splitOnceColon (rustTrim seg) with
  | none =>
      .error (.noColon (trimOff segOff seg, trimOff segOff seg + (rustTrim seg).length)
        (firstSpace (rustTrim seg)))
  | some (pre, post) => parse_bullet pre post (trimOff segOff seg, trimOff segOff seg + pre.length)

/-- Fail-fast collection (`collect::<Result<Vec<_>, _>>()` over the mapped
bullet iterator): the first error aborts the whole parse. -/
def parseSegs (base : Nat) : List (Nat × List Char) →
    Except ParsingIssue (List (List Char × List Char))
  | [] => .ok []
  | (off, seg) :: rest =>
    match parseOneBullet (base + off) seg with
    | .error e => .error e
    | .ok pr =>
        match parseSegs base rest with
        | .error e => .error e
        | .ok prs => .ok (pr :: prs)

/-- Truncation at the section end (parsing.rs lines 63-65): keep everything
up to the start of the first section-end match, or the whole text. -/
def sectionCut (comment1 : List Char) : List Char :=
  comment1.take
    (match scanNl sectionEndCore 0 comment1 with
     | some (st, _) => st
     | none => comment1.length)

/-- `BulletKind::choose` + the body of `parse_bullets_from_string`
(parsing.rs lines 41-88, 151-176) for the `Requirement` marker:

1. find the unique marker (`NoMarkerPattern` / `MultipleMarkerPatterns` with
   all match ranges);
2. truncate at the section-end match;
3. choose the bullet style (`NonMatchingBullets` with the first occurrence of
   each style, `EmptyMarker` if none);
4. split on the chosen bullet pattern, drop the pre-bullet segment, and parse
   each bullet fail-fast. -/
def parse_bullets_from_string (orig : List Char) :
    Except ParsingIssue (List (List Char × List Char)) :=
  match reFind markerCore orig with
  | none => .error .noMarkerPattern
  | some (_, me) =>
    if (reFind markerCore (orig.drop me)).isSome then
      .error (.multipleMarkerPatterns (marker_ranges orig))
    else
      match reFind (bulletCore '*') (sectionCut (orig.drop me)),
          reFind (bulletCore '-') (sectionCut (orig.drop me)) with
      | some apos, some hpos =>
          .error (.nonMatchingBullets
            [((apos.2 + me - 1, apos.2 + me),
               ((sectionCut (orig.drop me)).drop apos.1).take (apos.2 - apos.1)),
             ((hpos.2 + me - 1, hpos.2 + me),
               ((sectionCut (orig.drop me)).drop hpos.1).take (hpos.2 - hpos.1))])
      | none, none => .error .emptyMarker
      | some _, none => parseSegs me ((bulletSplit '*' (sectionCut (orig.drop me))).drop 1)
      | none, some _ => parseSegs me ((bulletSplit '-' (sectionCut (orig.drop me))).drop 1)

/-- `Annotation::parse` (hocklorp annotations/mod.rs lines 28-35): an item
with no doc string at all yields `NoDocString`. -/
def parseAnnot (doc : Option (List Char)) :
    Except ParsingIssue (List (List Char × List Char)) :=
  match doc with
  | none => .error .noDocString
  | some s => parse_bullets_from_string s

/-- `Annotation::try_parse` (hocklorp annotations/mod.rs lines 37-45):
`NoDocString` and `NoMarkerPattern` are recoverable — the caller treats the
item as simply not annotated (`None`); every other result is surfaced. -/
def try_parse (doc : Option (List Char)) :
    Option (Except ParsingIssue (List (List Char × List Char))) :=
  match parseAnnot doc with
  | .error .noDocString => none
  | .error .noMarkerPattern => none
  | r => some r

/-! ## C7: marker-line recognition -/

/-- The claim's acceptance predicate for a single line: optional leading
whitespace, one or more `#`, one space, and the section keyword in any
letter casing, with nothing else on the line. -/
def claimMarkerLine (l : List Char) : Bool :=
  let l1 := l.dropWhile isWsChar
  let l2 := l1.dropWhile (fun c => c == '#')
  decide (l2.length < l1.length) &&
    match l2 with
    | ' ' :: kw => kw.map Char.toLower == ['u', 'n', 's', 'a', 'f', 'e']
    | _ => false

/-- Code acceptance of a single line (no `'\n'` inside): within a document
the marker regex matches at this line exactly when its body matcher accepts
the line, since the `(\n|^)` anchor sits at the line start and `(\n|$)` at
its end. -/
def markerLineAccepted (l : List Char) : Bool :=
  (markerCore l).isSome

def lowerMarkerLine : List Char := "# unsafe".data

def titleMarkerLine : List Char := "# Unsafe".data

def lowerDoc : List Char := "# unsafe\n- nn: x".data

/-- C7 (code bug): the claim — and the source's own doc comment on
`section_marker_regex` ("ignoring the text's case") — accept the keyword in
any letter casing, but the regex alternation is literally `Unsafe|UNSAFE`:
the line `"# unsafe"` satisfies the claimed shape yet is not accepted, and a
document using it parses as `NoMarkerPattern` (treated as unannotated). -/
theorem c7_case_insensitive_code_bug :
    claimMarkerLine lowerMarkerLine = true ∧
      markerLineAccepted lowerMarkerLine = false ∧
      claimMarkerLine titleMarkerLine = true ∧
      markerLineAccepted titleMarkerLine = true ∧
      parse_bullets_from_string lowerDoc = .error .noMarkerPattern := by
  refine ⟨rfl, rfl, rfl, rfl, rfl⟩

/-! ## C8: zero or multiple marker occurrences -/

theorem parseOneBullet_error_shape (o : Nat) (seg : List Char) (e : ParsingIssue)
    (h : parseOneBullet o seg = .error e) :
    e ≠ .noDocString ∧ e ≠ .noMarkerPattern := by
  unfold parseOneBullet at h
  cases hsp : splitOnceColon (rustTrim seg) with
  | none =>
      rw [hsp] at h
      simp at h
      subst h
      exact ⟨by simp, by simp⟩
  | some pr =>
      obtain ⟨pre, post⟩ := pr
      rw [hsp] at h
      simp only at h
      unfold parse_bullet at h
      cases htn : ConditionName.try_new pre with
      | error reason =>
          rw [htn] at h
          simp at h
          subst h
          exact ⟨by simp, by simp⟩
      | ok name =>
          rw [htn] at h
          simp at h

theorem parseSegs_error_shape (base : Nat) (l : List (Nat × List Char))
    (e : ParsingIssue) (h : parseSegs base l = .error e) :
    e ≠ .noDocString ∧ e ≠ .noMarkerPattern := by
  induction l with
  | nil => simp [parseSegs] at h
  | cons hd tl ih =>
      obtain ⟨off, seg⟩ := hd
      unfold parseSegs at h
      cases hb : parseOneBullet (base + off) seg with
      | error e2 =>
          rw [hb] at h
          simp at h
          subst h
          exact parseOneBullet_error_shape _ _ _ hb
      | ok pr =>
          rw [hb] at h
          cases hrest : parseSegs base tl with
          | error e2 =>
              rw [hrest] at h
              simp at h
              subst h
              exact ih hrest
          | ok prs =>
              rw [hrest] at h
              simp at h

/-- `parse_bullets_from_string` never produces `NoDocString` (that error is
raised only by the caller for items with no documentation at all). -/
theorem parse_bullets_ne_noDocString (orig : List Char) (e : ParsingIssue)
    (h : parse_bullets_from_string orig = .error e) : e ≠ .noDocString := by
  unfold parse_bullets_from_string at h
  cases hf : reFind markerCore orig with
  | none =>
      rw [hf] at h
      simp at h
      subst h
      simp
  | some r =>
      obtain ⟨st, me⟩ := r
      rw [hf] at h
      simp only at h
      by_cases h2 : (reFind markerCore (orig.drop me)).isSome
      · rw [if_pos h2] at h
        simp at h
        subst h
        simp
      · rw [if_neg h2] at h
        rcases ha : reFind (bulletCore '*') (sectionCut (orig.drop me)) with _ | apos <;>
          rcases hh : reFind (bulletCore '-') (sectionCut (orig.drop me)) with _ | hpos <;>
          rw [ha, hh] at h
        · simp at h
          subst h
          simp
        · exact (parseSegs_error_shape _ _ _ h).1
        · exact (parseSegs_error_shape _ _ _ h).1
        · simp at h
          subst h
          simp

/-- C8 (claim): parsing locates the unique marker occurrence.  Zero matches
(by the source's own enumeration loop) yield `NoMarkerPattern`, which the
caller `try_parse` treats as recoverable — exactly `NoDocString` and
`NoMarkerPattern` map to `None` ("this item is simply not annotated") —
while two or more matches yield `MultipleMarkerPatterns` carrying the
character ranges of every match. -/
theorem c8_marker_occurrences (orig : List Char) :
    (marker_ranges orig = [] →
      parse_bullets_from_string orig = .error .noMarkerPattern) ∧
      (2 ≤ (marker_ranges orig).length →
        parse_bullets_from_string orig =
          .error (.multipleMarkerPatterns (marker_ranges orig))) ∧
      (try_parse (some orig) = none ↔
        parse_bullets_from_string orig = .error .noMarkerPattern) := by
  refine ⟨?_, ?_, ?_⟩
  · intro hz
    unfold marker_ranges markerRangesAux at hz
    cases hf : reFind markerCore orig with
    | none =>
        unfold parse_bullets_from_string
        rw [hf]
    | some r =>
        rw [hf] at hz
        simp at hz
  · intro h2
    unfold marker_ranges at h2 ⊢
    unfold markerRangesAux at h2
    cases hf : reFind markerCore orig with
    | none =>
        rw [hf] at h2
        simp at h2
    | some r =>
        obtain ⟨st, en⟩ := r
        rw [hf] at h2
        simp only [List.length_cons] at h2
        have htail : markerRangesAux orig.length (orig.drop en) (0 + en) ≠ [] := by
          intro hnil
          rw [hnil] at h2
          simp at h2
        have hsec : (reFind markerCore (orig.drop en)).isSome := by
          cases hl : orig.length with
          | zero =>
              exfalso
              rw [hl] at htail
              exact htail rfl
          | succ m =>
              rw [hl] at htail
              unfold markerRangesAux at htail
              cases hf2 : reFind markerCore (orig.drop en) with
              | none =>
                  rw [hf2] at htail
                  exact absurd rfl htail
              | some r2 => simp
        unfold parse_bullets_from_string
        rw [hf]
        simp only
        rw [if_pos hsec]
        unfold marker_ranges markerRangesAux
        rw [hf]
  · unfold try_parse parseAnnot
    simp only
    cases hp : parse_bullets_from_string orig with
    | ok l => simp
    | error e =>
        cases e with
        | noDocString => exact absurd rfl (parse_bullets_ne_noDocString orig _ hp)
        | noMarkerPattern => simp
        | multipleMarkerPatterns rs => simp
        | noColon a b => simp
        | emptyMarker => simp
        | invalidConditionName a b c => simp
        | nonMatchingBullets bs => simp

/-- Witness for C8 at the text `"abc"` (no marker) via direct application. -/
theorem c8_marker_occurrences_witness :
    parse_bullets_from_string ['a', 'b', 'c'] = .error .noMarkerPattern :=
  (c8_marker_occurrences ['a', 'b', 'c']).1 (by decide)

/-! ## Rendered requirement sections

To settle the universally-quantified claims about well-formed (or almost
well-formed) requirement sections (C1, C9), we quantify over an abstract
description of the section — one line per body line, each line made of an
indent, a single line-leading character, and the rest of the line — and
render it to text.  The rendered shapes are exactly the texts the claims
quantify over. -/

/-- One line of the section body: indentation, the line-leading character
(the bullet style, or a prose character), and the rest of the line. -/
structure Bullet where
  indent : List Char
  style : Char
  content : List Char
deriving DecidableEq

def bodyOf (bl : Bullet) : List Char := bl.indent ++ bl.style :: bl.content

def bodyLen (bl : Bullet) : Nat := bl.indent.length + 1 + bl.content.length

def renderBullet (bl : Bullet) : List Char := '\n' :: bodyOf bl

def joinRenders (bls : List Bullet) : List Char := (bls.map renderBullet).flatten

/-- The requirement-section header `"# Unsafe"`. -/
def marker8 : List Char := ['#', ' ', 'U', 'n', 's', 'a', 'f', 'e']

def renderSection (bls : List Bullet) : List Char := marker8 ++ joinRenders bls

/-- The text remaining after the consumed marker match (which eats the
trailing newline): the first line's body, then the remaining rendered
lines. -/
def tailRender : List Bullet → List Char
  | [] => []
  | bl :: rest => bodyOf bl ++ joinRenders rest

def IndentOk (l : List Char) : Prop := ∀ c ∈ l, c = ' ' ∨ c = '\t'

/-- Conditions on a line that keep the renders honest: ws-only indent, a
line-leading character that is not whitespace, `#`, or a newline, and no
newline inside the content. -/
def LineOk (bl : Bullet) : Prop :=
  IndentOk bl.indent ∧ isWsChar bl.style = false ∧ bl.style ≠ '#' ∧
    bl.style ≠ '\n' ∧ '\n' ∉ bl.content

def StyleOk (c : Char) : Prop := c = '-' ∨ c = '*'

/-- A bullet line: a line whose leading character is a bullet style. -/
def BulletOk (bl : Bullet) : Prop := LineOk bl ∧ StyleOk bl.style

theorem bulletOk_of (bl : Bullet) (hind : IndentOk bl.indent)
    (hs : StyleOk bl.style) (hc : '\n' ∉ bl.content) : BulletOk bl := by
  rcases hs with h | h <;>
    exact ⟨⟨hind, by rw [h]; rfl, by rw [h]; simp, by rw [h]; simp, hc⟩,
      by rw [h]; simp [StyleOk]⟩

theorem nl_not_mem_body (bl : Bullet) (h : LineOk bl) : '\n' ∉ bodyOf bl := by
  obtain ⟨hind, _, _, hsnl, hcnl⟩ := h
  unfold bodyOf
  intro hmem
  rcases List.mem_append.mp hmem with hm | hm
  · rcases hind _ hm with he | he <;> simp_all
  · rcases List.mem_cons.mp hm with hm | hm
    · exact hsnl hm.symm
    · exact hcnl hm

/-! Generic helpers for the matchers on rendered shapes. -/

theorem takeWhile_append_of (p : Char → Bool) (l : List Char)
    (hl : ∀ x ∈ l, p x = true) (c : Char) (hc : p c = false) (r : List Char) :
    ((l ++ c :: r).takeWhile p) = l := by
  induction l with
  | nil => simp [List.takeWhile_cons, hc]
  | cons a tl ih =>
      have ha : p a = true := hl a (by simp)
      simp only [List.cons_append, List.takeWhile_cons]
      rw [if_pos ha, ih (fun x hx => hl x (by simp [hx]))]

theorem drop_append_cons (l : List Char) (c : Char) (r : List Char) :
    ((l ++ c :: r).drop l.length) = c :: r := by
  rw [List.drop_left]

theorem drop_append_cons_succ (l : List Char) (c : Char) (r : List Char) :
    ((l ++ c :: r).drop (l.length + 1)) = r := by
  have h : l ++ c :: r = (l ++ [c]) ++ r := by simp
  rw [h]
  have hlen : l.length + 1 = (l ++ [c]).length := by simp
  rw [hlen, List.drop_left]

theorem scanNl_append_no_nl (core : List Char → Option Nat) (i : Nat)
    (u : List Char) (hu : '\n' ∉ u) (v : List Char) :
    scanNl core i (u ++ v) = scanNl core (i + u.length) v := by
  induction u generalizing i with
  | nil => simp
  | cons c tl ih =>
      have hc : c ≠ '\n' := fun he => hu (by simp [he])
      simp only [List.cons_append, scanNl, if_neg hc]
      simp only [List.append_eq]
      rw [ih (i + 1) (fun hm => hu (by simp [hm]))]
      congr 1
      simp only [List.length_cons]
      omega

theorem markerCore_body_none (ind : List Char) (hind : ∀ x ∈ ind, isWsChar x = true)
    (c : Char) (hcw : isWsChar c = false) (hch : c ≠ '#') (r : List Char) :
    markerCore (ind ++ c :: r) = none := by
  unfold markerCore
  dsimp only
  rw [takeWhile_append_of isWsChar ind hind c hcw r, drop_append_cons]
  have h : (c :: r).takeWhile (fun x => x == '#') = [] := by
    simp [List.takeWhile_cons, hch]
  rw [h]
  simp

theorem bulletCore_body (b : Char) (ind : List Char)
    (hind : ∀ x ∈ ind, isWsChar x = true) (c : Char) (hcw : isWsChar c = false)
    (r : List Char) :
    bulletCore b (ind ++ c :: r) =
      (if c = b then some (ind.length + 1) else none) := by
  unfold bulletCore
  dsimp only
  rw [takeWhile_append_of isWsChar ind hind c hcw r, drop_append_cons]

theorem sectionEndTail_none (c : Char) (hch : c ≠ '#') (hcn : c ≠ '\n')
    (r : List Char) : sectionEndTail (c :: r) = none := by
  unfold sectionEndTail
  dsimp only
  rw [if_neg hch, if_neg hcn]

theorem indentOk_ws (ind : List Char) (hind : IndentOk ind) :
    ∀ x ∈ ind, isWsChar x = true := by
  intro x hx
  rcases hind x hx with h | h <;> simp [h, isWsChar]

theorem sectionEndCore_body_none (ind : List Char) (hind : IndentOk ind)
    (c : Char) (hcw : isWsChar c = false) (hch : c ≠ '#') (hcn : c ≠ '\n')
    (r : List Char) :
    sectionEndCore (ind ++ c :: r) = none := by
  induction ind with
  | nil =>
      simp only [List.nil_append]
      unfold sectionEndCore
      rw [hcw]
      simp only [Bool.false_eq_true, if_false]
      exact sectionEndTail_none c hch hcn r
  | cons a tl ih =>
      have ha : a = ' ' ∨ a = '\t' := hind a (by simp)
      have haw : isWsChar a = true := by rcases ha with h | h <;> simp [h, isWsChar]
      have hah : a ≠ '#' := by rcases ha with h | h <;> simp [h]
      have han : a ≠ '\n' := by rcases ha with h | h <;> simp [h]
      have htl : sectionEndCore (tl ++ c :: r) = none :=
        ih (fun x hx => hind x (by simp [hx]))
      simp only [List.cons_append]
      unfold sectionEndCore
      rw [haw]
      simp only [if_true]
      rw [htl]
      exact sectionEndTail_none a hah han _

/-- A core that fails on every line body (whatever follows it) never matches
anywhere inside the rendered lines. -/
theorem scanNl_join_none (core : List Char → Option Nat) (bls : List Bullet)
    (hok : ∀ bl ∈ bls, LineOk bl)
    (hfail : ∀ bl ∈ bls, ∀ v : List Char, core (bodyOf bl ++ v) = none) :
    ∀ i : Nat, scanNl core i (joinRenders bls) = none := by
  induction bls with
  | nil => intro i; rfl
  | cons bl rest ih =>
      intro i
      have hjr : joinRenders (bl :: rest) = '\n' :: (bodyOf bl ++ joinRenders rest) := by
        simp [joinRenders, renderBullet]
      rw [hjr]
      unfold scanNl
      rw [if_pos rfl, hfail bl (by simp) (joinRenders rest)]
      rw [scanNl_append_no_nl core (i + 1) (bodyOf bl) (nl_not_mem_body bl (hok bl (by simp)))]
      exact ih (fun x hx => hok x (by simp [hx])) (fun x hx => hfail x (by simp [hx])) _

theorem markerCore_line_none (bl : Bullet) (h : LineOk bl) (v : List Char) :
    markerCore (bodyOf bl ++ v) = none := by
  obtain ⟨hind, hsw, hsh, _, _⟩ := h
  unfold bodyOf
  rw [List.append_assoc, List.cons_append]
  exact markerCore_body_none bl.indent (indentOk_ws _ hind) bl.style hsw hsh _

theorem sectionEndCore_line_none (bl : Bullet) (h : LineOk bl) (v : List Char) :
    sectionEndCore (bodyOf bl ++ v) = none := by
  obtain ⟨hind, hsw, hsh, hsn, _⟩ := h
  unfold bodyOf
  rw [List.append_assoc, List.cons_append]
  exact sectionEndCore_body_none bl.indent hind bl.style hsw hsh hsn _

theorem bulletCore_line (b : Char) (bl : Bullet) (h : LineOk bl) (v : List Char) :
    bulletCore b (bodyOf bl ++ v) =
      (if bl.style = b then some (bl.indent.length + 1) else none) := by
  obtain ⟨hind, hsw, _, _, _⟩ := h
  unfold bodyOf
  rw [List.append_assoc, List.cons_append]
  exact bulletCore_body b bl.indent (indentOk_ws _ hind) bl.style hsw _

/-- Marker recognition on a rendered section with at least one line. -/
theorem reFind_marker_render (bl : Bullet) (rest : List Bullet) :
    reFind markerCore (renderSection (bl :: rest)) = some (0, 9) := by
  have h : renderSection (bl :: rest) =
      marker8 ++ '\n' :: (bodyOf bl ++ joinRenders rest) := by
    simp [renderSection, joinRenders, renderBullet, marker8]
  rw [h]
  rfl

theorem drop9_render (bl : Bullet) (rest : List Bullet) :
    (renderSection (bl :: rest)).drop 9 = tailRender (bl :: rest) := by
  have h : renderSection (bl :: rest) =
      marker8 ++ '\n' :: (bodyOf bl ++ joinRenders rest) := by
    simp [renderSection, joinRenders, renderBullet, marker8]
  rw [h]
  rfl

/-- No second marker occurs in the rendered tail. -/
theorem reFind_marker_tail_none (bls : List Bullet) (hok : ∀ bl ∈ bls, LineOk bl) :
    reFind markerCore (tailRender bls) = none := by
  cases bls with
  | nil => rfl
  | cons bl rest =>
      unfold tailRender reFind
      rw [markerCore_line_none bl (hok bl (by simp))]
      rw [scanNl_append_no_nl markerCore 0 (bodyOf bl)
        (nl_not_mem_body bl (hok bl (by simp)))]
      rw [scanNl_join_none markerCore rest (fun x hx => hok x (by simp [hx]))
        (fun x hx v => markerCore_line_none x (hok x (by simp [hx])) v)]

/-- No section-end match occurs in the rendered tail, so the cut is the whole
tail. -/
theorem sectionCut_tail (bls : List Bullet) (hok : ∀ bl ∈ bls, LineOk bl) :
    sectionCut (tailRender bls) = tailRender bls := by
  cases bls with
  | nil => rfl
  | cons bl rest =>
      unfold sectionCut tailRender
      rw [scanNl_append_no_nl sectionEndCore 0 (bodyOf bl)
        (nl_not_mem_body bl (hok bl (by simp)))]
      rw [scanNl_join_none sectionEndCore rest (fun x hx => hok x (by simp [hx]))
        (fun x hx v => sectionEndCore_line_none x (hok x (by simp [hx])) v)]
      simp


/-! ## Locating the first bullet of each style in a rendered section -/

/-- The result of `reFind (bulletCore c)` on a rendered tail, computed
directly from the abstract lines: the first line whose leading character is
`c` produces the match; `off` is the position where the current line's body
starts, and `first` marks the first line (matched through the `^` branch,
without a preceding newline). -/
def styleFind (c : Char) : Bool → Nat → List Bullet → Option (Nat × Nat)
  | _, _, [] => none
  | first, off, bl :: rest =>
    if bl.style = c then
      some (if first then 0 else off - 1, off + bl.indent.length + 1)
    else styleFind c false (off + bodyLen bl + 1) rest

theorem bodyOf_length (bl : Bullet) : (bodyOf bl).length = bodyLen bl := by
  simp [bodyOf, bodyLen]
  omega

theorem joinRenders_cons (bl : Bullet) (rest : List Bullet) :
    joinRenders (bl :: rest) = '\n' :: (bodyOf bl ++ joinRenders rest) := by
  simp [joinRenders, renderBullet]

theorem styleFind_cons (c : Char) (first : Bool) (off : Nat) (bl : Bullet)
    (rest : List Bullet) :
    styleFind c first off (bl :: rest) =
      (if bl.style = c then
        some (if first then 0 else off - 1, off + bl.indent.length + 1)
      else styleFind c false (off + bodyLen bl + 1) rest) := by
  rfl

theorem scanNl_bulletCore_join (c : Char) (bls : List Bullet)
    (hok : ∀ bl ∈ bls, LineOk bl) :
    ∀ i : Nat, scanNl (bulletCore c) i (joinRenders bls) = styleFind c false (i + 1) bls := by
  induction bls with
  | nil => intro i; rfl
  | cons bl rest ih =>
      intro i
      rw [joinRenders_cons]
      unfold scanNl
      rw [if_pos rfl, bulletCore_line c bl (hok bl (by simp)) (joinRenders rest)]
      rw [styleFind_cons]
      by_cases hs : bl.style = c
      · rw [if_pos hs, if_pos hs]
        rfl
      · rw [if_neg hs, if_neg hs]
        rw [scanNl_append_no_nl (bulletCore c) (i + 1) (bodyOf bl)
          (nl_not_mem_body bl (hok bl (by simp)))]
        rw [ih (fun x hx => hok x (by simp [hx]))]
        rw [bodyOf_length]

theorem reFind_bulletCore_tail (c : Char) (bls : List Bullet)
    (hok : ∀ bl ∈ bls, LineOk bl) :
    reFind (bulletCore c) (tailRender bls) = styleFind c true 0 bls := by
  cases bls with
  | nil => rfl
  | cons bl rest =>
      unfold tailRender reFind
      rw [bulletCore_line c bl (hok bl (by simp)) (joinRenders rest)]
      rw [styleFind_cons]
      by_cases hs : bl.style = c
      · rw [if_pos hs, if_pos hs]
        simp
      · rw [if_neg hs, if_neg hs]
        rw [scanNl_append_no_nl (bulletCore c) 0 (bodyOf bl)
          (nl_not_mem_body bl (hok bl (by simp)))]
        rw [scanNl_bulletCore_join c rest (fun x hx => hok x (by simp [hx]))]
        rw [bodyOf_length]

theorem styleFind_none_iff (c : Char) (bls : List Bullet) :
    ∀ (first : Bool) (off : Nat),
      (styleFind c first off bls = none ↔ ∀ bl ∈ bls, bl.style ≠ c) := by
  induction bls with
  | nil => intro first off; simp [styleFind]
  | cons bl rest ih =>
      intro first off
      rw [styleFind_cons]
      by_cases hs : bl.style = c
      · rw [if_pos hs]
        simp only [reduceCtorEq, false_iff]
        intro hall
        exact hall bl (by simp) hs
      · rw [if_neg hs]
        rw [ih false (off + bodyLen bl + 1)]
        constructor
        · intro hall x hx
          rcases List.mem_cons.mp hx with hx | hx
          · subst hx; exact hs
          · exact hall x hx
        · intro hall x hx
          exact hall x (by simp [hx])

/-! ## Segments produced by the bullet split on a rendered section -/

/-- The `(offset, segment)` pairs the bullet split produces on a rendered
tail: bullet `j`'s segment is its content, starting right after its style
character. -/
def segsOf : Nat → List Bullet → List (Nat × List Char)
  | _, [] => []
  | off, bl :: rest =>
      (off + bl.indent.length + 1, bl.content) :: segsOf (off + bodyLen bl + 1) rest

theorem segsOf_cons (off : Nat) (bl : Bullet) (rest : List Bullet) :
    segsOf off (bl :: rest) =
      (off + bl.indent.length + 1, bl.content) :: segsOf (off + bodyLen bl + 1) rest := by
  rfl

theorem scanNl_none_of_no_nl (core : List Char → Option Nat) (i : Nat)
    (u : List Char) (hu : '\n' ∉ u) : scanNl core i u = none := by
  have h := scanNl_append_no_nl core i u hu []
  rw [List.append_nil] at h
  rw [h]
  rfl

theorem splitIter_render (b : Char) (bls : List Bullet) :
    ∀ (prev : List Char) (off fuel : Nat),
      '\n' ∉ prev → (∀ bl ∈ bls, LineOk bl ∧ bl.style = b) →
      (prev ++ joinRenders bls).length < fuel →
      splitIter b fuel (prev ++ joinRenders bls) off =
        (off, prev) :: segsOf (off + prev.length + 1) bls := by
  induction bls with
  | nil =>
      intro prev off fuel hprev _ hfuel
      match fuel, hfuel with
      | fuel + 1, _ =>
          unfold splitIter
          have hjoin : joinRenders [] = [] := rfl
          rw [hjoin, List.append_nil] at *
          rw [scanNl_none_of_no_nl (bulletCore b) 0 prev hprev]
          rfl
  | cons bl rest ih =>
      intro prev off fuel hprev hok hfuel
      match fuel, hfuel with
      | fuel + 1, hfuel =>
          unfold splitIter
          rw [joinRenders_cons]
          rw [scanNl_append_no_nl (bulletCore b) 0 prev hprev]
          unfold scanNl
          rw [if_pos rfl, bulletCore_line b bl (hok bl (by simp)).1 (joinRenders rest),
            if_pos (hok bl (by simp)).2]
          simp only
          have htake : (prev ++ '\n' :: (bodyOf bl ++ joinRenders rest)).take
              (0 + prev.length) = prev := by
            rw [Nat.zero_add, List.take_left]
          have hdrop : (prev ++ '\n' :: (bodyOf bl ++ joinRenders rest)).drop
              (0 + prev.length + 1 + (bl.indent.length + 1)) =
              bl.content ++ joinRenders rest := by
            have h1 : 0 + prev.length + 1 + (bl.indent.length + 1) =
                prev.length + (1 + (bl.indent.length + 1)) := by omega
            rw [h1, List.drop_append]
            have h2 : (1 : Nat) + (bl.indent.length + 1) = bl.indent.length + 1 + 1 := by
              omega
            rw [h2]
            show ('\n' :: (bodyOf bl ++ joinRenders rest)).drop (bl.indent.length + 1 + 1) =
              bl.content ++ joinRenders rest
            have h3 : ('\n' :: (bodyOf bl ++ joinRenders rest)).drop
                (bl.indent.length + 1 + 1) =
                (bodyOf bl ++ joinRenders rest).drop (bl.indent.length + 1) := rfl
            rw [h3]
            have h4 : bodyOf bl ++ joinRenders rest =
                bl.indent ++ bl.style :: (bl.content ++ joinRenders rest) := by
              simp [bodyOf]
            rw [h4, drop_append_cons_succ]
          rw [htake, hdrop]
          have hlen : (bl.content ++ joinRenders rest).length < fuel := by
            rw [joinRenders_cons] at hfuel
            have hb : (bodyOf bl).length = bl.indent.length + 1 + bl.content.length := by
              simp [bodyOf]
              omega
            simp only [List.length_append, List.length_cons, hb] at hfuel
            simp only [List.length_append]
            omega
          rw [ih (bl.content) (off + (0 + prev.length + 1 + (bl.indent.length + 1))) fuel
            (hok bl (by simp)).1.2.2.2.2 (fun x hx => hok x (by simp [hx])) hlen]
          rw [segsOf_cons]
          have ho1 : off + (0 + prev.length + 1 + (bl.indent.length + 1)) =
              off + prev.length + 1 + bl.indent.length + 1 := by omega
          rw [ho1]
          have ho2 : off + prev.length + 1 + bl.indent.length + 1 + bl.content.length + 1 =
              off + prev.length + 1 + bodyLen bl + 1 := by
            unfold bodyLen
            omega
          rw [ho2]

theorem bulletSplit_tail (b : Char) (bl : Bullet) (rest : List Bullet)
    (hok : ∀ x ∈ bl :: rest, LineOk x ∧ x.style = b) :
    bulletSplit b (tailRender (bl :: rest)) = (0, []) :: segsOf 0 (bl :: rest) := by
  unfold bulletSplit
  rw [reFind_bulletCore_tail b (bl :: rest) (fun x hx => (hok x hx).1)]
  rw [styleFind_cons, if_pos (hok bl (by simp)).2]
  have hdrop : (tailRender (bl :: rest)).drop (0 + bl.indent.length + 1) =
      bl.content ++ joinRenders rest := by
    have ht : tailRender (bl :: rest) = bodyOf bl ++ joinRenders rest := rfl
    rw [ht]
    have h4 : bodyOf bl ++ joinRenders rest =
        bl.indent ++ bl.style :: (bl.content ++ joinRenders rest) := by
      simp [bodyOf]
    rw [h4]
    have h5 : 0 + bl.indent.length + 1 = bl.indent.length + 1 := by omega
    rw [h5, drop_append_cons_succ]
  simp only [if_true, List.take_zero]
  rw [hdrop]
  have hlen : (bl.content ++ joinRenders rest).length <
      (tailRender (bl :: rest)).length + 1 := by
    have ht : tailRender (bl :: rest) = bodyOf bl ++ joinRenders rest := rfl
    rw [ht]
    have hb : (bodyOf bl).length = bl.indent.length + 1 + bl.content.length := by
      simp [bodyOf]
      omega
    simp only [List.length_append, hb]
    omega
  rw [splitIter_render b rest bl.content (0 + bl.indent.length + 1)
    ((tailRender (bl :: rest)).length + 1) (hok bl (by simp)).1.2.2.2.2
    (fun x hx => hok x (by simp [hx])) hlen]
  rw [segsOf_cons]
  have ho2 : 0 + bl.indent.length + 1 + bl.content.length + 1 = 0 + bodyLen bl + 1 := by
    unfold bodyLen
    omega
  rw [ho2]

/-- The whole parse on a rendered nonempty section, up to the bullet-style
choice: the marker is found once (consuming its trailing newline), nothing
ends the section early, and the result depends only on the first occurrence
of each bullet style. -/
theorem parse_render_choose (bls : List Bullet) (hok : ∀ bl ∈ bls, LineOk bl)
    (hne : bls ≠ []) :
    parse_bullets_from_string (renderSection bls) =
      (match styleFind '*' true 0 bls, styleFind '-' true 0 bls with
       | some apos, some hpos =>
           .error (.nonMatchingBullets
             [((apos.2 + 9 - 1, apos.2 + 9),
                ((tailRender bls).drop apos.1).take (apos.2 - apos.1)),
              ((hpos.2 + 9 - 1, hpos.2 + 9),
                ((tailRender bls).drop hpos.1).take (hpos.2 - hpos.1))])
       | none, none => .error .emptyMarker
       | some _, none => parseSegs 9 ((bulletSplit '*' (tailRender bls)).drop 1)
       | none, some _ => parseSegs 9 ((bulletSplit '-' (tailRender bls)).drop 1)) := by
  match bls, hne with
  | bl :: rest, _ =>
      unfold parse_bullets_from_string
      rw [reFind_marker_render bl rest]
      simp only
      rw [drop9_render bl rest, reFind_marker_tail_none (bl :: rest) hok]
      simp only [Option.isSome_none, Bool.false_eq_true, if_false]
      rw [sectionCut_tail (bl :: rest) hok]
      rw [reFind_bulletCore_tail '*' (bl :: rest) hok,
        reFind_bulletCore_tail '-' (bl :: rest) hok]


/-! ## Whitespace trimming: `str::trim` decomposed -/

/-- Trailing-whitespace removal; `rustTrim` is this composed with a leading
`dropWhile`. -/
def trimRight (s : List Char) : List Char :=
  (s.reverse.dropWhile isWsChar).reverse

theorem rustTrim_eq (s : List Char) :
    rustTrim s = trimRight (s.dropWhile isWsChar) := rfl

theorem dropWhile_cons_neg (p : Char → Bool) (c : Char) (t : List Char)
    (hc : p c = false) : (c :: t).dropWhile p = c :: t := by
  simp [List.dropWhile, hc]

theorem dropWhile_all_append (p : Char → Bool) (u : List Char)
    (hu : ∀ x ∈ u, p x = true) (v : List Char) :
    (u ++ v).dropWhile p = v.dropWhile p := by
  induction u with
  | nil => rfl
  | cons a t ih =>
      have ha : p a = true := hu a (by simp)
      simp only [List.cons_append, List.dropWhile, ha]
      exact ih (fun x hx => hu x (by simp [hx]))

theorem dropWhile_ne_nil_append (p : Char → Bool) (u : List Char)
    (hu : u.dropWhile p ≠ []) (v : List Char) :
    (u ++ v).dropWhile p = u.dropWhile p ++ v := by
  induction u with
  | nil => exact absurd rfl hu
  | cons a t ih =>
      by_cases ha : p a = true
      · simp only [List.cons_append, List.dropWhile, ha]
        refine ih ?_
        intro h0
        apply hu
        simp [List.dropWhile, ha, h0]
      · have ha' : p a = false := by
          cases hq : p a
          · rfl
          · exact absurd hq ha
        simp [List.dropWhile, ha']

theorem dropWhile_nil_all (p : Char → Bool) (l : List Char)
    (h : l.dropWhile p = []) : ∀ x ∈ l, p x = true := by
  induction l with
  | nil => intro x hx; simp at hx
  | cons a t ih =>
      by_cases ha : p a = true
      · simp only [List.dropWhile, ha] at h
        intro x hx
        rcases List.mem_cons.mp hx with rfl | hx
        · exact ha
        · exact ih h x hx
      · have ha' : p a = false := by
          cases hq : p a
          · rfl
          · exact absurd hq ha
        simp [List.dropWhile, ha'] at h

theorem dropWhile_all_nil (p : Char → Bool) (l : List Char)
    (h : ∀ x ∈ l, p x = true) : l.dropWhile p = [] := by
  induction l with
  | nil => rfl
  | cons a t ih =>
      have ha : p a = true := h a (by simp)
      simp only [List.dropWhile, ha]
      exact ih (fun x hx => h x (by simp [hx]))

theorem dropWhile_head_neg (p : Char → Bool) (l : List Char) (c : Char)
    (t : List Char) (h : l.dropWhile p = c :: t) : p c = false := by
  induction l with
  | nil => simp at h
  | cons a u ih =>
      by_cases ha : p a = true
      · simp only [List.dropWhile, ha] at h
        exact ih h
      · have ha' : p a = false := by
          cases hq : p a
          · rfl
          · exact absurd hq ha
        rw [dropWhile_cons_neg p a u ha'] at h
        cases h
        exact ha'

theorem dropWhile_idem (p : Char → Bool) (l : List Char) :
    (l.dropWhile p).dropWhile p = l.dropWhile p := by
  induction l with
  | nil => rfl
  | cons a t ih =>
      by_cases ha : p a = true
      · simp only [List.dropWhile, ha]
        exact ih
      · have ha' : p a = false := by
          cases hq : p a
          · rfl
          · exact absurd hq ha
        rw [dropWhile_cons_neg p a t ha', dropWhile_cons_neg p a t ha']

theorem all_takeWhile (p : Char → Bool) (l : List Char) :
    ∀ x ∈ l.takeWhile p, p x = true := by
  induction l with
  | nil => intro x hx; simp at hx
  | cons a t ih =>
      by_cases ha : p a = true
      · simp only [List.takeWhile, ha]
        intro x hx
        rcases List.mem_cons.mp hx with rfl | hx
        · exact ha
        · exact ih x hx
      · have ha' : p a = false := by
          cases hq : p a
          · rfl
          · exact absurd hq ha
        simp [List.takeWhile, ha']

theorem trimRight_nil_of_all (u : List Char) (h : ∀ x ∈ u, isWsChar x = true) :
    trimRight u = [] := by
  unfold trimRight
  rw [dropWhile_all_nil isWsChar u.reverse (fun x hx => h x (List.mem_reverse.mp hx))]
  rfl

theorem trimRight_append_of_exists (u v : List Char)
    (h : ∃ x ∈ v, isWsChar x = false) :
    trimRight (u ++ v) = u ++ trimRight v := by
  obtain ⟨x, hx, hpx⟩ := h
  have hne : v.reverse.dropWhile isWsChar ≠ [] := by
    intro h0
    have hall := dropWhile_nil_all isWsChar v.reverse h0 x (List.mem_reverse.mpr hx)
    rw [hpx] at hall
    exact absurd hall (by simp)
  unfold trimRight
  rw [List.reverse_append, dropWhile_ne_nil_append isWsChar v.reverse hne u.reverse,
    List.reverse_append, List.reverse_reverse]

theorem trimRight_append_of_all (u v : List Char)
    (h : ∀ x ∈ v, isWsChar x = true) :
    trimRight (u ++ v) = trimRight u := by
  unfold trimRight
  rw [List.reverse_append,
    dropWhile_all_append isWsChar v.reverse (fun x hx => h x (List.mem_reverse.mp hx))]

theorem trimRight_cons_neg (c : Char) (v : List Char) (hc : isWsChar c = false) :
    trimRight (c :: v) = c :: trimRight v := by
  by_cases hall : ∀ x ∈ v, isWsChar x = true
  · have h1 : trimRight (c :: v) = trimRight [c] := by
      have h2 : c :: v = [c] ++ v := rfl
      rw [h2, trimRight_append_of_all [c] v hall]
    have h3 : trimRight [c] = [c] := by
      unfold trimRight
      rw [List.reverse_singleton, dropWhile_cons_neg isWsChar c [] hc,
        List.reverse_singleton]
    rw [h1, h3, trimRight_nil_of_all v hall]
  · push_neg at hall
    obtain ⟨x, hx, hfx⟩ := hall
    have hfx' : isWsChar x = false := by
      cases hq : isWsChar x
      · rfl
      · exact absurd hq hfx
    have h2 : c :: v = [c] ++ v := rfl
    rw [h2, trimRight_append_of_exists [c] v ⟨x, hx, hfx'⟩]
    rfl

theorem trimRight_idem (l : List Char) : trimRight (trimRight l) = trimRight l := by
  unfold trimRight
  rw [List.reverse_reverse, dropWhile_idem]

theorem rustTrim_trimRight (d : List Char) : rustTrim (trimRight d) = rustTrim d := by
  by_cases hall : ∀ x ∈ d, isWsChar x = true
  · rw [trimRight_nil_of_all d hall]
    rw [rustTrim_eq d, dropWhile_all_nil isWsChar d hall]
    rfl
  · push_neg at hall
    obtain ⟨x, hx, hfx⟩ := hall
    have hfx' : isWsChar x = false := by
      cases hq : isWsChar x
      · rfl
      · exact absurd hq hfx
    have hne : d.dropWhile isWsChar ≠ [] := by
      intro h0
      have := dropWhile_nil_all isWsChar d h0 x hx
      rw [hfx'] at this
      exact absurd this (by simp)
    obtain ⟨d0, dt, hd⟩ : ∃ d0 dt, d.dropWhile isWsChar = d0 :: dt := by
      cases hq : d.dropWhile isWsChar with
      | nil => exact absurd hq hne
      | cons a t => exact ⟨a, t, rfl⟩
    have hd0 : isWsChar d0 = false := dropWhile_head_neg isWsChar d d0 dt hd
    have hR : rustTrim d = d0 :: trimRight dt := by
      rw [rustTrim_eq, hd, trimRight_cons_neg d0 dt hd0]
    have hsplit : d.takeWhile isWsChar ++ d.dropWhile isWsChar = d :=
      List.takeWhile_append_dropWhile isWsChar d
    have hT : trimRight d = d.takeWhile isWsChar ++ (d0 :: trimRight dt) := by
      conv_lhs => rw [← hsplit]
      rw [hd, trimRight_append_of_exists (d.takeWhile isWsChar) (d0 :: dt)
        ⟨d0, by simp, hd0⟩, trimRight_cons_neg d0 dt hd0]
    have hL : rustTrim (trimRight d) = d0 :: trimRight (trimRight dt) := by
      rw [rustTrim_eq, hT,
        dropWhile_all_append isWsChar (d.takeWhile isWsChar)
          (all_takeWhile isWsChar d) (d0 :: trimRight dt),
        dropWhile_cons_neg isWsChar d0 (trimRight dt) hd0,
        trimRight_cons_neg d0 (trimRight dt) hd0]
    rw [hL, hR, trimRight_idem]

theorem mem_dropWhile (p : Char → Bool) (x : Char) (l : List Char)
    (h : x ∈ l.dropWhile p) : x ∈ l := by
  induction l with
  | nil => simp at h
  | cons a t ih =>
      by_cases ha : p a = true
      · simp only [List.dropWhile, ha] at h
        exact List.mem_cons_of_mem a (ih h)
      · have ha' : p a = false := by
          cases hq : p a
          · rfl
          · exact absurd hq ha
        rw [dropWhile_cons_neg p a t ha'] at h
        exact h

theorem mem_of_mem_rustTrim (x : Char) (s : List Char) (h : x ∈ rustTrim s) :
    x ∈ s := by
  unfold rustTrim at h
  rw [List.mem_reverse] at h
  have h1 := mem_dropWhile isWsChar x _ h
  rw [List.mem_reverse] at h1
  exact mem_dropWhile isWsChar x s h1

/-! ## The colon split and condition-name validation on well-formed bullets -/

theorem splitOnceColon_cons (c : Char) (rest : List Char) :
    splitOnceColon (c :: rest) =
      (if c = ':' then some ([], rest)
       else (splitOnceColon rest).map (fun pr => (c :: pr.1, pr.2))) := rfl

theorem splitOnceColon_append (name desc : List Char) (h : ':' ∉ name) :
    splitOnceColon (name ++ ':' :: desc) = some (name, desc) := by
  induction name with
  | nil => rfl
  | cons c t ih =>
      have hc : c ≠ ':' := fun he => h (by simp [he])
      rw [List.cons_append, splitOnceColon_cons, if_neg hc,
        ih (fun hm => h (by simp [hm]))]
      rfl

theorem splitOnceColon_none (l : List Char) (h : ':' ∉ l) :
    splitOnceColon l = none := by
  induction l with
  | nil => rfl
  | cons c t ih =>
      have hc : c ≠ ':' := fun he => h (by simp [he])
      rw [splitOnceColon_cons, if_neg hc, ih (fun hm => h (by simp [hm]))]
      rfl

theorem try_new_ok (name : List Char) (h : ∀ x ∈ name, isWsChar x = false) :
    ConditionName.try_new name = .ok name := by
  unfold ConditionName.try_new check_single_word
  have hany : (name.any (fun c => decide (c ∈ INVALID_WHITESPACE))) = false := by
    cases hq : name.any (fun c => decide (c ∈ INVALID_WHITESPACE))
    · rfl
    · exfalso
      obtain ⟨x, hx, hpx⟩ := List.any_eq_true.mp hq
      have hws := h x hx
      rw [decide_eq_true_eq] at hpx
      simp only [INVALID_WHITESPACE, List.mem_cons, List.not_mem_nil, or_false] at hpx
      rcases hpx with rfl | rfl | rfl <;> simp [isWsChar] at hws
  rw [hany]
  simp

theorem parse_bullet_ok (name post : List Char) (pc : Nat × Nat)
    (h : ∀ x ∈ name, isWsChar x = false) :
    parse_bullet name post pc = .ok (name, rustTrim post) := by
  unfold parse_bullet
  rw [try_new_ok name h]

theorem rustTrim_shape (sp name desc : List Char)
    (hsp : ∀ x ∈ sp, isWsChar x = true) (hname : name ≠ [])
    (hws : ∀ x ∈ name, isWsChar x = false) :
    rustTrim (sp ++ name ++ ':' :: desc) = name ++ ':' :: trimRight desc := by
  obtain ⟨n0, nt, rfl⟩ : ∃ n0 nt, name = n0 :: nt := by
    cases name with
    | nil => exact absurd rfl hname
    | cons a b => exact ⟨a, b, rfl⟩
  have h0 : isWsChar n0 = false := hws n0 (by simp)
  rw [rustTrim_eq, List.append_assoc, dropWhile_all_append isWsChar sp hsp,
    List.cons_append, dropWhile_cons_neg isWsChar n0 (nt ++ ':' :: desc) h0,
    ← List.cons_append]
  have hcol : trimRight ((n0 :: nt) ++ ':' :: desc) =
      (n0 :: nt) ++ trimRight (':' :: desc) :=
    trimRight_append_of_exists (n0 :: nt) (':' :: desc) ⟨':', by simp, by decide⟩
  rw [hcol, trimRight_cons_neg ':' desc (by decide)]

theorem parseOneBullet_good (o : Nat) (sp name desc : List Char)
    (hsp : ∀ x ∈ sp, isWsChar x = true) (hname : name ≠ [])
    (hws : ∀ x ∈ name, isWsChar x = false) (hcol : ':' ∉ name) :
    parseOneBullet o (sp ++ name ++ ':' :: desc) = .ok (name, rustTrim desc) := by
  unfold parseOneBullet
  rw [rustTrim_shape sp name desc hsp hname hws,
    splitOnceColon_append name (trimRight desc) hcol]
  have hres : parse_bullet name (trimRight desc)
      (trimOff o (sp ++ name ++ ':' :: desc),
       trimOff o (sp ++ name ++ ':' :: desc) + name.length) =
      .ok (name, rustTrim desc) := by
    rw [parse_bullet_ok name (trimRight desc) _ hws, rustTrim_trimRight]
  exact hres

theorem parseOneBullet_nocolon (o : Nat) (seg : List Char) (h : ':' ∉ seg) :
    parseOneBullet o seg =
      .error (.noColon (trimOff o seg, trimOff o seg + (rustTrim seg).length)
        (firstSpace (rustTrim seg))) := by
  unfold parseOneBullet
  rw [splitOnceColon_none (rustTrim seg) (fun hm => h (mem_of_mem_rustTrim ':' seg hm))]

/-! ## Offsets of bullets inside the rendered tail -/

/-- The offset inside the rendered tail at which the line after `pre` starts
(each line contributes its body plus one newline). -/
def offsetUpTo : List Bullet → Nat
  | [] => 0
  | bl :: rest => bodyLen bl + 1 + offsetUpTo rest

theorem segsOf_append (u v : List Bullet) :
    ∀ off, segsOf off (u ++ v) = segsOf off u ++ segsOf (off + offsetUpTo u) v := by
  induction u with
  | nil =>
      intro off
      have h1 : offsetUpTo ([] : List Bullet) = 0 := rfl
      simp [segsOf, h1]
  | cons bl rest ih =>
      intro off
      rw [List.cons_append, segsOf_cons, segsOf_cons, ih]
      have h1 : offsetUpTo (bl :: rest) = bodyLen bl + 1 + offsetUpTo rest := rfl
      rw [h1]
      have h2 : off + bodyLen bl + 1 + offsetUpTo rest =
          off + (bodyLen bl + 1 + offsetUpTo rest) := by omega
      rw [h2, List.cons_append]

theorem joinRenders_append (u v : List Bullet) :
    joinRenders (u ++ v) = joinRenders u ++ joinRenders v := by
  simp [joinRenders]

theorem joinRenders_length (l : List Bullet) :
    (joinRenders l).length = offsetUpTo l := by
  induction l with
  | nil => rfl
  | cons bl rest ih =>
      rw [joinRenders_cons]
      have h1 : offsetUpTo (bl :: rest) = bodyLen bl + 1 + offsetUpTo rest := rfl
      simp only [List.length_cons, List.length_append, bodyOf_length, ih, h1]
      omega

theorem take_append_cons (l : List Char) (c : Char) (r : List Char) :
    ((l ++ c :: r).take (l.length + 1)) = l ++ [c] := by
  have h : l ++ c :: r = (l ++ [c]) ++ r := by simp
  rw [h]
  have hlen : l.length + 1 = (l ++ [c]).length := by simp
  rw [hlen, List.take_left]

/-! ## The first occurrence of a bullet style, structurally -/

theorem styleFind_decomp_aux (c : Char) (rest : List Bullet) :
    ∀ (o st en : Nat), styleFind c false o rest = some (st, en) →
      ∃ pre bl post, rest = pre ++ bl :: post ∧ bl.style = c ∧
        (∀ x ∈ pre, x.style ≠ c) ∧
        en = o + offsetUpTo pre + bl.indent.length + 1 ∧
        st = o + offsetUpTo pre - 1 := by
  induction rest with
  | nil =>
      intro o st en h
      rw [show styleFind c false o ([] : List Bullet) = none from rfl] at h
      exact absurd h (by simp)
  | cons bl rest ih =>
      intro o st en h
      rw [styleFind_cons] at h
      by_cases hs : bl.style = c
      · rw [if_pos hs] at h
        simp only [Option.some.injEq, Prod.mk.injEq, Bool.false_eq_true, if_false] at h
        obtain ⟨h1, h2⟩ := h
        refine ⟨[], bl, rest, by simp, hs, by simp, ?_, ?_⟩
        · have h0 : offsetUpTo ([] : List Bullet) = 0 := rfl
          omega
        · have h0 : offsetUpTo ([] : List Bullet) = 0 := rfl
          omega
      · rw [if_neg hs] at h
        obtain ⟨pre, bl', post, hdec, hbs, hpre, hen, hst⟩ :=
          ih (o + bodyLen bl + 1) st en h
        refine ⟨bl :: pre, bl', post, by rw [List.cons_append, hdec], hbs, ?_, ?_, ?_⟩
        · intro x hx
          rcases List.mem_cons.mp hx with rfl | hx
          · exact hs
          · exact hpre x hx
        · have h0 : offsetUpTo (bl :: pre) = bodyLen bl + 1 + offsetUpTo pre := rfl
          omega
        · have h0 : offsetUpTo (bl :: pre) = bodyLen bl + 1 + offsetUpTo pre := rfl
          omega

theorem styleFind_decomp (c : Char) (bls : List Bullet) (st en : Nat)
    (h : styleFind c true 0 bls = some (st, en)) :
    ∃ pre bl post, bls = pre ++ bl :: post ∧ bl.style = c ∧
      (∀ x ∈ pre, x.style ≠ c) ∧
      en = offsetUpTo pre + bl.indent.length + 1 ∧
      st = (if pre.isEmpty then 0 else offsetUpTo pre - 1) := by
  cases bls with
  | nil =>
      rw [show styleFind c true 0 ([] : List Bullet) = none from rfl] at h
      exact absurd h (by simp)
  | cons bl rest =>
      rw [styleFind_cons] at h
      by_cases hs : bl.style = c
      · rw [if_pos hs] at h
        simp only [Option.some.injEq, Prod.mk.injEq] at h
        obtain ⟨h1, h2⟩ := h
        simp only [if_true] at h1
        refine ⟨[], bl, rest, rfl, hs, by simp, ?_, ?_⟩
        · have h0 : offsetUpTo ([] : List Bullet) = 0 := rfl
          omega
        · simp only [List.isEmpty_nil, if_true]
          omega
      · rw [if_neg hs] at h
        obtain ⟨pre, bl', post, hdec, hbs, hpre, hen, hst⟩ :=
          styleFind_decomp_aux c rest (0 + bodyLen bl + 1) st en h
        refine ⟨bl :: pre, bl', post, by rw [List.cons_append, hdec], hbs, ?_, ?_, ?_⟩
        · intro x hx
          rcases List.mem_cons.mp hx with rfl | hx
          · exact hs
          · exact hpre x hx
        · have h0 : offsetUpTo (bl :: pre) = bodyLen bl + 1 + offsetUpTo pre := rfl
          omega
        · have h0 : offsetUpTo (bl :: pre) = bodyLen bl + 1 + offsetUpTo pre := rfl
          simp only [List.isEmpty_cons, Bool.false_eq_true, if_false]
          omega

/-- The matched text of the first occurrence of a bullet style: the optional
preceding newline, the line's indent, and its style character. -/
theorem render_first_style (bls pre : List Bullet) (bl : Bullet) (post : List Bullet)
    (hdec : bls = pre ++ bl :: post) :
    ((tailRender bls).drop (if pre.isEmpty then 0 else offsetUpTo pre - 1)).take
        (offsetUpTo pre + bl.indent.length + 1 -
          (if pre.isEmpty then 0 else offsetUpTo pre - 1)) =
      (if pre.isEmpty then [] else ['\n']) ++ (bl.indent ++ [bl.style]) := by
  subst hdec
  cases pre with
  | nil =>
      simp only [List.isEmpty_nil, if_true, List.nil_append]
      have ht : tailRender (bl :: post) =
          bl.indent ++ bl.style :: (bl.content ++ joinRenders post) := by
        have h0 : tailRender (bl :: post) = bodyOf bl ++ joinRenders post := rfl
        rw [h0]
        simp [bodyOf]
      rw [ht, List.drop_zero]
      have harith : offsetUpTo ([] : List Bullet) + bl.indent.length + 1 - 0 =
          bl.indent.length + 1 := by
        have h0 : offsetUpTo ([] : List Bullet) = 0 := rfl
        omega
      rw [harith, take_append_cons]
  | cons p0 ps =>
      simp only [List.isEmpty_cons, Bool.false_eq_true, if_false]
      have ht : tailRender ((p0 :: ps) ++ bl :: post) =
          (bodyOf p0 ++ joinRenders ps) ++
            '\n' :: (bl.indent ++ bl.style :: (bl.content ++ joinRenders post)) := by
        have h0 : tailRender ((p0 :: ps) ++ bl :: post) =
            bodyOf p0 ++ joinRenders (ps ++ bl :: post) := rfl
        rw [h0, joinRenders_append, joinRenders_cons]
        simp [bodyOf]
      rw [ht]
      have htk : offsetUpTo (p0 :: ps) + bl.indent.length + 1 -
          (offsetUpTo (p0 :: ps) - 1) = bl.indent.length + 2 := by
        have h1 : offsetUpTo (p0 :: ps) = bodyLen p0 + 1 + offsetUpTo ps := rfl
        omega
      rw [htk]
      have hplen : offsetUpTo (p0 :: ps) - 1 =
          (bodyOf p0 ++ joinRenders ps).length := by
        have h1 : offsetUpTo (p0 :: ps) = bodyLen p0 + 1 + offsetUpTo ps := rfl
        simp only [List.length_append, bodyOf_length, joinRenders_length]
        omega
      rw [hplen, List.drop_left]
      have h2 : ('\n' :: (bl.indent ++ bl.style :: (bl.content ++ joinRenders post))) =
          ('\n' :: bl.indent) ++ bl.style :: (bl.content ++ joinRenders post) := by
        simp
      rw [h2]
      have h3 : bl.indent.length + 2 = ('\n' :: bl.indent).length + 1 := by
        simp
      rw [h3, take_append_cons]
      simp

/-! ## Uniform-style sections parse segment by segment -/

theorem parse_render_uniform (b : Char) (hb : b = '-' ∨ b = '*') (bl : Bullet)
    (rest : List Bullet) (hok : ∀ x ∈ bl :: rest, LineOk x ∧ x.style = b) :
    parse_bullets_from_string (renderSection (bl :: rest)) =
      parseSegs 9 (segsOf 0 (bl :: rest)) := by
  rw [parse_render_choose (bl :: rest) (fun x hx => (hok x hx).1) (by simp)]
  rcases hb with hb | hb
  · subst hb
    have hstar : styleFind '*' true 0 (bl :: rest) = none := by
      rw [styleFind_none_iff]
      intro x hx
      rw [(hok x hx).2]
      decide
    have hdash : ¬ (styleFind '-' true 0 (bl :: rest) = none) := by
      rw [styleFind_none_iff]
      push_neg
      exact ⟨bl, by simp, (hok bl (by simp)).2⟩
    rcases hsf : styleFind '-' true 0 (bl :: rest) with _ | p
    · exact absurd hsf hdash
    · rw [hstar]
      show parseSegs 9 ((bulletSplit '-' (tailRender (bl :: rest))).drop 1) =
        parseSegs 9 (segsOf 0 (bl :: rest))
      rw [bulletSplit_tail '-' bl rest hok]
      rfl
  · subst hb
    have hdash : styleFind '-' true 0 (bl :: rest) = none := by
      rw [styleFind_none_iff]
      intro x hx
      rw [(hok x hx).2]
      decide
    have hstar : ¬ (styleFind '*' true 0 (bl :: rest) = none) := by
      rw [styleFind_none_iff]
      push_neg
      exact ⟨bl, by simp, (hok bl (by simp)).2⟩
    rcases hsf : styleFind '*' true 0 (bl :: rest) with _ | p
    · exact absurd hsf hstar
    · rw [hdash]
      show parseSegs 9 ((bulletSplit '*' (tailRender (bl :: rest))).drop 1) =
        parseSegs 9 (segsOf 0 (bl :: rest))
      rw [bulletSplit_tail '*' bl rest hok]
      rfl

theorem parseSegs_cons (base off : Nat) (seg : List Char)
    (rest : List (Nat × List Char)) :
    parseSegs base ((off, seg) :: rest) =
      (match parseOneBullet (base + off) seg with
       | .error e => .error e
       | .ok pr =>
           match parseSegs base rest with
           | .error e => .error e
           | .ok prs => .ok (pr :: prs)) := rfl

theorem parseSegs_ok_then (base : Nat) (u v : List (Nat × List Char))
    (l : List (List Char × List Char)) (hu : parseSegs base u = .ok l) :
    parseSegs base (u ++ v) =
      (match parseSegs base v with
       | .error e => .error e
       | .ok m => .ok (l ++ m)) := by
  induction u generalizing l with
  | nil =>
      have hl : l = [] := by
        have h0 : parseSegs base ([] : List (Nat × List Char)) = .ok [] := rfl
        rw [h0] at hu
        cases hu
        rfl
      subst hl
      rw [List.nil_append]
      cases hv : parseSegs base v
      · rfl
      · simp
  | cons p t ih =>
      obtain ⟨off, seg⟩ := p
      rw [List.cons_append, parseSegs_cons]
      rw [parseSegs_cons] at hu
      cases ho : parseOneBullet (base + off) seg with
      | error e =>
          rw [ho] at hu
          simp at hu
      | ok pr =>
          rw [ho] at hu
          cases ht : parseSegs base t with
          | error e =>
              rw [ht] at hu
              simp at hu
          | ok lt =>
              rw [ht] at hu
              simp at hu
              subst hu
              rw [ih lt ht]
              cases hv : parseSegs base v
              · rfl
              · simp


/-! ## Well-formed bullet sources and the C1/C9 claims -/

/-- The source of one well-formed bullet: indentation before the style
character, padding after it, then `name: desc`. -/
structure BulletSrc where
  indent : List Char
  pad : List Char
  name : List Char
  desc : List Char
deriving DecidableEq

/-- Render a bullet source as a section line with style `b`. -/
def srcBullet (b : Char) (it : BulletSrc) : Bullet :=
  ⟨it.indent, b, it.pad ++ it.name ++ ':' :: it.desc⟩

/-- Well-formedness of a bullet source: whitespace-only indent and padding, a
nonempty colon-free single-token name, and a newline-free description. -/
def ItemOk (it : BulletSrc) : Prop :=
  IndentOk it.indent ∧ IndentOk it.pad ∧ it.name ≠ [] ∧
    (∀ x ∈ it.name, isWsChar x = false ∧ x ≠ ':') ∧ '\n' ∉ it.desc

instance decIndentOk (l : List Char) : Decidable (IndentOk l) :=
  List.decidableBAll (fun c => c = ' ' ∨ c = '\t') l

instance decLineOk (bl : Bullet) : Decidable (LineOk bl) := by
  unfold LineOk
  infer_instance

instance decItemOk (it : BulletSrc) : Decidable (ItemOk it) := by
  unfold ItemOk
  infer_instance

theorem srcBullet_lineOk (b : Char) (hb : b = '-' ∨ b = '*') (it : BulletSrc)
    (h : ItemOk it) : LineOk (srcBullet b it) ∧ (srcBullet b it).style = b := by
  obtain ⟨hind, hpad, hname, hchars, hnl⟩ := h
  refine ⟨⟨hind, ?_, ?_, ?_, ?_⟩, rfl⟩
  · rcases hb with h1 | h1 <;> (subst h1; rfl)
  · rcases hb with h1 | h1 <;> (subst h1; simp [srcBullet])
  · rcases hb with h1 | h1 <;> (subst h1; simp [srcBullet])
  · intro hmem
    have hmem2 : '\n' ∈ it.pad ++ (it.name ++ ':' :: it.desc) := by
      have hc : (srcBullet b it).content = it.pad ++ it.name ++ ':' :: it.desc := rfl
      rw [hc, List.append_assoc] at hmem
      exact hmem
    rcases List.mem_append.mp hmem2 with hm | hm
    · rcases hpad '\n' hm with he | he <;> exact absurd he (by decide)
    · rcases List.mem_append.mp hm with hm2 | hm2
      · exact absurd (hchars '\n' hm2).1 (by decide)
      · rcases List.mem_cons.mp hm2 with he | he
        · exact absurd he (by decide)
        · exact hnl he

theorem parseSegs_goods (b : Char) (items : List BulletSrc)
    (hok : ∀ it ∈ items, ItemOk it) :
    ∀ off, parseSegs 9 (segsOf off (items.map (srcBullet b))) =
      .ok (items.map (fun it => (it.name, rustTrim it.desc))) := by
  induction items with
  | nil => intro off; rfl
  | cons it rest ih =>
      intro off
      rw [List.map_cons, segsOf_cons, parseSegs_cons]
      obtain ⟨hind, hpad, hname, hchars, hnl⟩ := hok it (by simp)
      have hone : parseOneBullet (9 + (off + (srcBullet b it).indent.length + 1))
          ((srcBullet b it).content) = .ok (it.name, rustTrim it.desc) := by
        show parseOneBullet (9 + (off + (srcBullet b it).indent.length + 1))
            (it.pad ++ it.name ++ ':' :: it.desc) = .ok (it.name, rustTrim it.desc)
        exact parseOneBullet_good _ it.pad it.name it.desc
          (indentOk_ws it.pad hpad) hname
          (fun x hx => (hchars x hx).1)
          (fun hm => (hchars ':' hm).2 rfl)
      rw [hone, ih (fun x hx => hok x (by simp [hx])), List.map_cons]

/-- C1: for a rendered requirement section with `N` well-formed bullets all
using the same style `b` (each of the form `name: description` with a valid
single-token name), parsing returns `Ok` with exactly the `N`
`(name, trimmed description)` pairs in source order; and if a single bullet
is malformed — its line errors, whatever the error — the whole parse
returns that one bullet's error and no partial list (fail-fast). -/
theorem c1_round_trip_fail_fast (b : Char) (hb : b = '-' ∨ b = '*') :
    (∀ items : List BulletSrc, items ≠ [] → (∀ it ∈ items, ItemOk it) →
      parse_bullets_from_string (renderSection (items.map (srcBullet b))) =
        .ok (items.map (fun it => (it.name, rustTrim it.desc)))) ∧
    (∀ goods : List BulletSrc, ∀ bad : Bullet, ∀ more : List Bullet,
      ∀ e : ParsingIssue,
      (∀ it ∈ goods, ItemOk it) → LineOk bad → bad.style = b →
      (∀ x ∈ more, LineOk x ∧ x.style = b) →
      parseOneBullet (9 + offsetUpTo (goods.map (srcBullet b)) + bad.indent.length + 1)
          bad.content = .error e →
      parse_bullets_from_string
          (renderSection (goods.map (srcBullet b) ++ bad :: more)) =
        .error e) := by
  constructor
  · intro items hne hok
    cases items with
    | nil => exact absurd rfl hne
    | cons it0 its =>
        have hlok : ∀ x ∈ (it0 :: its).map (srcBullet b), LineOk x ∧ x.style = b := by
          intro x hx
          obtain ⟨it, hit, rfl⟩ := List.mem_map.mp hx
          exact srcBullet_lineOk b hb it (hok it hit)
        rw [List.map_cons] at hlok
        rw [List.map_cons, parse_render_uniform b hb _ _ hlok, ← List.map_cons]
        exact parseSegs_goods b (it0 :: its) hok 0
  · intro goods bad more e hgok hbadok hbads hmok hbe
    have hall : ∀ x ∈ goods.map (srcBullet b) ++ bad :: more,
        LineOk x ∧ x.style = b := by
      intro x hx
      rcases List.mem_append.mp hx with hm | hm
      · obtain ⟨it, hit, rfl⟩ := List.mem_map.mp hm
        exact srcBullet_lineOk b hb it (hgok it hit)
      · rcases List.mem_cons.mp hm with rfl | hm2
        · exact ⟨hbadok, hbads⟩
        · exact hmok x hm2
    obtain ⟨bl0, rest0, hcons⟩ : ∃ bl0 rest0,
        goods.map (srcBullet b) ++ bad :: more = bl0 :: rest0 := by
      cases hq : goods.map (srcBullet b) ++ bad :: more with
      | nil => exact absurd hq (by simp)
      | cons a t => exact ⟨a, t, rfl⟩
    rw [hcons, parse_render_uniform b hb bl0 rest0 (hcons ▸ hall), ← hcons]
    rw [segsOf_append (goods.map (srcBullet b)) (bad :: more), segsOf_cons]
    rw [parseSegs_ok_then 9 (segsOf 0 (goods.map (srcBullet b))) _ _
      (parseSegs_goods b goods hgok 0)]
    rw [parseSegs_cons]
    have harith :
        9 + (0 + offsetUpTo (goods.map (srcBullet b)) + bad.indent.length + 1) =
        9 + offsetUpTo (goods.map (srcBullet b)) + bad.indent.length + 1 := by omega
    rw [harith, hbe]

def itemsC1 : List BulletSrc :=
  [⟨[], [' '], ['n', 'n'], [' ', 'x']⟩, ⟨[], [' '], ['b', 'b'], [' ', 'y']⟩]

def goodsC1 : List BulletSrc := [⟨[], [' '], ['n', 'n'], [' ', 'x']⟩]

def badC1 : Bullet :=
  ⟨[], '-', [' ', 'b', 'a', 'd', ' ', 'b', 'u', 'l', 'l', 'e', 't']⟩

/-- Witness for C1: a concrete two-bullet `-`-style section round-trips, and
a concrete section whose second bullet has no colon fails with exactly that
bullet's `NoColon` error. -/
theorem c1_round_trip_fail_fast_witness :
    (parse_bullets_from_string (renderSection (itemsC1.map (srcBullet '-'))) =
      .ok (itemsC1.map (fun it => (it.name, rustTrim it.desc)))) ∧
    (parse_bullets_from_string
        (renderSection (goodsC1.map (srcBullet '-') ++ badC1 :: [])) =
      .error (.noColon (19, 29) 3)) :=
  ⟨(c1_round_trip_fail_fast '-' (Or.inl rfl)).1 itemsC1 (by decide) (by decide),
   (c1_round_trip_fail_fast '-' (Or.inl rfl)).2 goodsC1 badC1 [] (.noColon (19, 29) 3)
     (by decide) (by decide) rfl (by decide) rfl⟩

/-- C9: on a rendered requirement section whose body lines are well formed,
if both a `*`-style and a `-`-style line occur then parsing fails with
`NonMatchingBullets` whose two entries name the first occurrence of each
style (the position of its style character in the original text, and its
matched text), regardless of counts or order; and if no line of either
style occurs (including the empty section body) parsing fails with
`EmptyMarker`. -/
theorem c9_style_exclusivity (bls : List Bullet) (hok : ∀ bl ∈ bls, LineOk bl) :
    ((∃ x ∈ bls, x.style = '*') → (∃ x ∈ bls, x.style = '-') →
      ∃ preA blA postA preH blH postH,
        bls = preA ++ blA :: postA ∧ blA.style = '*' ∧
        (∀ x ∈ preA, x.style ≠ '*') ∧
        bls = preH ++ blH :: postH ∧ blH.style = '-' ∧
        (∀ x ∈ preH, x.style ≠ '-') ∧
        parse_bullets_from_string (renderSection bls) =
          .error (.nonMatchingBullets
            [((offsetUpTo preA + blA.indent.length + 9,
               offsetUpTo preA + blA.indent.length + 10),
              (if preA.isEmpty then [] else ['\n']) ++ (blA.indent ++ [blA.style])),
             ((offsetUpTo preH + blH.indent.length + 9,
               offsetUpTo preH + blH.indent.length + 10),
              (if preH.isEmpty then [] else ['\n']) ++ (blH.indent ++ [blH.style]))])) ∧
    ((∀ x ∈ bls, x.style ≠ '*' ∧ x.style ≠ '-') →
      parse_bullets_from_string (renderSection bls) = .error .emptyMarker) := by
  constructor
  · intro hstar hdash
    have hne : bls ≠ [] := by
      obtain ⟨a, ha, _⟩ := hstar
      intro h0
      rw [h0] at ha
      simp at ha
    have hA : ¬ (styleFind '*' true 0 bls = none) := by
      rw [styleFind_none_iff]
      push_neg
      exact hstar
    have hH : ¬ (styleFind '-' true 0 bls = none) := by
      rw [styleFind_none_iff]
      push_neg
      exact hdash
    rcases hfa : styleFind '*' true 0 bls with _ | pa
    · exact absurd hfa hA
    obtain ⟨sa, ea⟩ := pa
    rcases hfh : styleFind '-' true 0 bls with _ | ph
    · exact absurd hfh hH
    obtain ⟨sh, eh⟩ := ph
    obtain ⟨preA, blA, postA, hdecA, hsA, hpreA, henA, hstA⟩ :=
      styleFind_decomp '*' bls sa ea hfa
    obtain ⟨preH, blH, postH, hdecH, hsH, hpreH, henH, hstH⟩ :=
      styleFind_decomp '-' bls sh eh hfh
    refine ⟨preA, blA, postA, preH, blH, postH, hdecA, hsA, hpreA, hdecH, hsH,
      hpreH, ?_⟩
    rw [parse_render_choose bls hok hne, hfa, hfh]
    show Except.error (ParsingIssue.nonMatchingBullets
        [((ea + 9 - 1, ea + 9), ((tailRender bls).drop sa).take (ea - sa)),
         ((eh + 9 - 1, eh + 9), ((tailRender bls).drop sh).take (eh - sh))]) = _
    subst henA hstA henH hstH
    rw [render_first_style bls preA blA postA hdecA,
      render_first_style bls preH blH postH hdecH]
    have e1 : offsetUpTo preA + blA.indent.length + 1 + 9 - 1 =
        offsetUpTo preA + blA.indent.length + 9 := by omega
    have e2 : offsetUpTo preA + blA.indent.length + 1 + 9 =
        offsetUpTo preA + blA.indent.length + 10 := by omega
    have e3 : offsetUpTo preH + blH.indent.length + 1 + 9 - 1 =
        offsetUpTo preH + blH.indent.length + 9 := by omega
    have e4 : offsetUpTo preH + blH.indent.length + 1 + 9 =
        offsetUpTo preH + blH.indent.length + 10 := by omega
    simp only [e1, e2, e3, e4]
  · intro hnone
    cases bls with
    | nil => rfl
    | cons bl rest =>
        rw [parse_render_choose (bl :: rest) hok (by simp)]
        have h1 : styleFind '*' true 0 (bl :: rest) = none := by
          rw [styleFind_none_iff]
          intro x hx
          exact (hnone x hx).1
        have h2 : styleFind '-' true 0 (bl :: rest) = none := by
          rw [styleFind_none_iff]
          intro x hx
          exact (hnone x hx).2
        rw [h1, h2]

def blsC9 : List Bullet :=
  [⟨[], '*', [' ', 'a', ':', ' ', 'x']⟩, ⟨[], '-', [' ', 'b', ':', ' ', 'y']⟩]

/-- Witness for C9 at a concrete mixed-style section. -/
theorem c9_style_exclusivity_witness :
    ((∃ x ∈ blsC9, x.style = '*') → (∃ x ∈ blsC9, x.style = '-') →
      ∃ preA blA postA preH blH postH,
        blsC9 = preA ++ blA :: postA ∧ blA.style = '*' ∧
        (∀ x ∈ preA, x.style ≠ '*') ∧
        blsC9 = preH ++ blH :: postH ∧ blH.style = '-' ∧
        (∀ x ∈ preH, x.style ≠ '-') ∧
        parse_bullets_from_string (renderSection blsC9) =
          .error (.nonMatchingBullets
            [((offsetUpTo preA + blA.indent.length + 9,
               offsetUpTo preA + blA.indent.length + 10),
              (if preA.isEmpty then [] else ['\n']) ++ (blA.indent ++ [blA.style])),
             ((offsetUpTo preH + blH.indent.length + 9,
               offsetUpTo preH + blH.indent.length + 10),
              (if preH.isEmpty then [] else ['\n']) ++ (blH.indent ++ [blH.style]))])) ∧
    ((∀ x ∈ blsC9, x.style ≠ '*' ∧ x.style ≠ '-') →
      parse_bullets_from_string (renderSection blsC9) = .error .emptyMarker) :=
  c9_style_exclusivity blsC9 (by decide)

end SniffTest
